import Mathlib

/-!
Verification of the "Certificate Intelligence" subsystem of the
TrainingDatabaseV2 web portal: OCR/PDF certificate text acquisition, field
extraction by a cascade of regular-expression heuristics, fuzzy name
matching against a user directory, and auto-fill reconciliation.

The JavaScript sources are embedded shallowly:

* JS strings are `List Char` (`Str`); JS numbers arising in the matching
  and parsing code are exact fractions (`JsNum`, interpreted into `ℚ` by
  `JsNum.toQ`): the arithmetic performed — small sums, divisions of small
  naturals, `min`/`max` — is exact in IEEE double at the sizes that occur,
  so an exact fraction is a faithful model of the values the code computes.
* The regular-expression operations (`text.match(re)`, `re.test(text)`,
  `text.replace(re, ..)`) are executed by a small backtracking engine
  (`RE`, `reMatch`, `jsMatch`) that reproduces the leftmost,
  alternation-ordered, greedy/lazy semantics of JS regexes for the
  constructs the source patterns use (character classes, bounded and
  unbounded repetition of classes, alternation, one capturing group, word
  boundaries, `^`, `$`).  Each JS pattern is transcribed into an `RE`
  value next to the function that uses it.
* External engines (pdf-parse, tesseract OCR, the host `Date` parser) are
  modelled as explicit inputs/oracles of the functions that consult them.

The source file of record for the parser/route is the newer of the two
versions of `routes/training.js` present in the repository (the one that
defines `parseCertificateFields` with `isLikelyMfri` and the
`/certificates/extract` route with the low-confidence gate), and the newer
version of the certificate-manager front-end script (the one defining
`scoreCandidateUser`, `findUserByName`, `findPossibleUsersByName`,
`applyAutofillResult`).
-/

set_option maxRecDepth 1000000

/-- JS strings, modelled as lists of characters. -/
abbrev Str := List Char

namespace CertIntel

/-! ## Character classes used by the JS source -/

/-- JS `\s` (the inputs of interest are ASCII; the ASCII whitespace chars). -/
def isWs (c : Char) : Bool :=
  c = ' ' || c = '\t' || c = '\n' || c = '\r' || c = '\x0b' || c = '\x0c'

/-- JS `\d`. -/
def isDigitC (c : Char) : Bool := c.isDigit

/-- JS `\w` (word character, for `\b`). -/
def isWordChar (c : Char) : Bool := c.isAlpha || c.isDigit || c = '_'

/-- ASCII lower-casing, as JS `toLowerCase` acts on the ASCII range. -/
def toLowerStr (s : Str) : Str := s.map Char.toLower

/-- ASCII upper-casing, as JS `toUpperCase` acts on the ASCII range. -/
def toUpperStr (s : Str) : Str := s.map Char.toUpper

/-! ## Plain string helpers (straight ports of small JS idioms) -/

/-- `String.prototype.trim` restricted to whitespace. -/
def jsTrim (s : Str) : Str :=
  ((s.dropWhile isWs).reverse.dropWhile isWs).reverse

/-- `text.replace(/\s+/g, ' ')`: collapse every whitespace run to one
space.  (Structural formulation: emit `' '` at the first char of each
whitespace run, skip the rest of the run.) -/
def squashWsAux : Bool → Str → Str
  | _, [] => []
  | prevWs, c :: t =>
    if isWs c then
      if prevWs then squashWsAux true t else ' ' :: squashWsAux true t
    else
      c :: squashWsAux false t

def squashWs (s : Str) : Str := squashWsAux false s

/-- `normalizeWhitespace` (training routes):
`(text || '').replace(/\s+/g, ' ').trim()`. -/
def normalizeWhitespace (s : Str) : Str := jsTrim (squashWs s)

/-- `text.replace(/[\r\n]+/g, ' ')` (same structural formulation: one
`' '` per run of line-break characters). -/
def crLfRunsAux : Bool → Str → Str
  | _, [] => []
  | prevBr, c :: t =>
    if c = '\r' || c = '\n' then
      if prevBr then crLfRunsAux true t else ' ' :: crLfRunsAux true t
    else
      c :: crLfRunsAux false t

def crLfRunsToSpace (s : Str) : Str := crLfRunsAux false s

/-- `toSingleLine` (training routes):
`normalizeWhitespace((text || '').replace(/[\r\n]+/g, ' '))`. -/
def toSingleLine (s : Str) : Str := normalizeWhitespace (crLfRunsToSpace s)

/-- `text.replace(/\r\n/g, '\n')`. -/
def crlfToLf : Str → Str
  | '\r' :: '\n' :: t => '\n' :: crlfToLf t
  | c :: t => c :: crlfToLf t
  | [] => []

/-- `text.replace(/\r/g, '\n')`. -/
def crToLf (s : Str) : Str := s.map (fun c => if c = '\r' then '\n' else c)

/-- `split('\n')`. -/
def splitNl (s : Str) : List Str := s.splitOn '\n'

/-- `array.join(sep)`. -/
def joinSep (sep : Str) (l : List Str) : Str :=
  match l with
  | [] => []
  | x :: xs => x ++ (xs.map (fun y => sep ++ y)).foldr (· ++ ·) []

end CertIntel

namespace CertIntel

/-! ## A small backtracking regex engine

`reMatch r s i` enumerates, in JS backtracking priority order, the outcomes
of matching `r` against the suffix of `s` starting at index `i`.  An outcome
is the end index of the match together with the span captured by the (at
most one) capturing group of the pattern.  `jsMatch` then implements
`s.match(r)`: scan candidate start positions from the left and take the
first position with a non-empty outcome list, whose head outcome is the
match JS reports. -/

/-- Regexes, with at most one capturing group (`grp`); `rep` is
greedy/lazy repetition of a single character class, which covers every
quantifier in the source patterns (all unbounded quantifiers in the source
apply to character classes). -/
inductive RE : Type where
  | eps : RE
  | cls : (Char → Bool) → RE
  | seq : RE → RE → RE
  | alt : RE → RE → RE
  | rep : (Char → Bool) → Nat → Option Nat → Bool → RE
  | grp : RE → RE
  | wb : RE
  | bos : RE
  | eos : RE

/-- Length of the maximal run of class characters at the head of `l`. -/
def runLen (p : Char → Bool) : Str → Nat
  | [] => 0
  | c :: t => if p c then runLen p t + 1 else 0

/-- Candidate repetition counts between `lo` and `min hi run`, greedy
(descending) or lazy (ascending). -/
def repCounts (lo : Nat) (hi : Option Nat) (lazy1 : Bool) (run : Nat) :
    List Nat :=
  let top := min (hi.getD run) run
  if lo > top then []
  else
    let asc := (List.range (top - lo + 1)).map (lo + ·)
    if lazy1 then asc else asc.reverse

/-- `s.get? i` as the character at absolute position `i`. -/
def charAt (s : Str) (i : Nat) : Option Char := s.get? i

/-- Is there a `\b` boundary at absolute position `i`? -/
def boundaryAt (s : Str) (i : Nat) : Bool :=
  let prevW := if i = 0 then false else
    match charAt s (i - 1) with
    | some c => isWordChar c
    | none => false
  let curW :=
    match charAt s i with
    | some c => isWordChar c
    | none => false
  prevW != curW

/-- One backtracking outcome: match end index and capture span (start, end). -/
abbrev ReOut := Nat × Option (Nat × Nat)

/-- All outcomes of matching `r` at position `i` of `s`, in JS priority
order (first element = what the backtracking engine commits to first). -/
def reMatch : RE → Str → Nat → List ReOut
  | .eps, _, i => [(i, none)]
  | .cls p, s, i =>
    match charAt s i with
    | some c => if p c then [(i + 1, none)] else []
    | none => []
  | .seq a b, s, i =>
    (reMatch a s i).flatMap fun (m, ca) =>
      (reMatch b s m).map fun (e, cb) => (e, ca.orElse fun _ => cb)
  | .alt a b, s, i => reMatch a s i ++ reMatch b s i
  | .rep p lo hi lz, s, i =>
    (repCounts lo hi lz (runLen p (s.drop i))).map fun k => (i + k, none)
  | .grp r, s, i => (reMatch r s i).map fun (e, _) => (e, some (i, e))
  | .wb, s, i => if boundaryAt s i then [(i, none)] else []
  | .bos, _, i => if i = 0 then [(i, none)] else []
  | .eos, s, i => if i = s.length then [(i, none)] else []

/-- Substring `s[a..b)`. -/
def slice (s : Str) (a b : Nat) : Str := (s.drop a).take (b - a)

/-- `s.match(r)`: `some (start, end, capture-span)` for the leftmost match. -/
def jsSearch (r : RE) (s : Str) : Option (Nat × Nat × Option (Nat × Nat)) :=
  (List.range (s.length + 1)).findSome? fun i =>
    match reMatch r s i with
    | [] => none
    | (e, cap) :: _ => some (i, e, cap)

/-- `s.match(r)` reduced to the data the source consults: whole match text
and the text of group 1 (when the group participated). -/
def jsMatch (r : RE) (s : Str) : Option (Str × Option Str) :=
  (jsSearch r s).map fun (i, e, cap) =>
    (slice s i e, cap.map fun (a, b) => slice s a b)

/-- `r.test(s)`. -/
def jsTest (r : RE) (s : Str) : Bool := (jsSearch r s).isSome

/-- `match[1]` of `s.match(r)`: `some`, only when a match exists and its
group captured. -/
def jsMatchCap (r : RE) (s : Str) : Option Str :=
  match jsMatch r s with
  | some (_, some g) => some g
  | _ => none

/-- `s.replace(r, '')` for a non-global regex: delete the leftmost match. -/
def jsReplaceFirstEmpty (r : RE) (s : Str) : Str :=
  match jsSearch r s with
  | some (i, e, _) => s.take i ++ s.drop e
  | none => s

/-! ### Pattern construction helpers -/

/-- Literal character, case-insensitively (our patterns all carry `/i`). -/
def chCI (c : Char) : RE := .cls (fun d => d.toLower = c.toLower)

/-- Literal character, exactly. -/
def chEx (c : Char) : RE := .cls (fun d => d = c)

/-- Case-insensitive literal word. -/
def litCI (w : Str) : RE := (w.map chCI).foldr .seq .eps

/-- `\s+` -/
def wsPlus : RE := .rep isWs 1 none false
/-- `\s*` -/
def wsStar : RE := .rep isWs 0 none false
/-- `\d+` -/
def digPlus : RE := .rep isDigitC 1 none false

/-- `re?` (greedy option). -/
def reOpt (r : RE) : RE := .alt r .eps

/-- Sequence of several regexes. -/
def reCat (l : List RE) : RE := l.foldr .seq .eps

end CertIntel

namespace CertIntel

/-! ## Transcriptions of the JS patterns of `parseCertificateFields`

Each definition below transcribes one regex literal of the newer
`routes/training.js`.  All carry the `/i` flag, hence `chCI`/`litCI`.
Non-capturing groups `(?:..)` are plain alternations; the single
`match[1]` group of each pattern is marked with `RE.grp`. -/

/-- Convenience: string literal to `Str`. -/
def str (s : String) : Str := s.toList

/-- Case-insensitive literal word given as a `String`. -/
def litCIS (w : String) : RE := litCI w.toList

/-- `\n+` -/
def nlPlus : RE := .rep (fun c => c = '\n') 1 none false

/-- JS `.` without the `s` flag: any char except line terminators. -/
def notNl (c : Char) : Bool := !(c = '\n' || c = '\r')

/-- `[^\n]` (used in the class-title captures). -/
def notLf (c : Char) : Bool := c != '\n'

/-- `[A-Z]` under `/i`. -/
def asciiAlpha (c : Char) : Bool := c.isAlpha

/-- `[A-Z0-9]` under `/i`. -/
def alnum (c : Char) : Bool := c.isAlpha || c.isDigit

/-- `[:\-]` -/
def colonDash (c : Char) : Bool := c = ':' || c = '-'

/-- `[A-Za-z'.,\-\s]` (name body chars). -/
def nameBody (c : Char) : Bool :=
  c.isAlpha || c = '\'' || c = '.' || c = ',' || c = '-' || isWs c

/-- `[A-Z0-9\-_/]` under `/i`. -/
def idBody (c : Char) : Bool := alnum c || c = '-' || c = '_' || c = '/'

/-- `[\/\-.]` (date separators). -/
def dateSep (c : Char) : Bool := c = '/' || c = '-' || c = '.'

/-- `(?:\.\d+)?` -/
def fracOpt : RE := reOpt (.seq (chEx '.') digPlus)

/-- `/\b(awarded\s+to|this\s+certificate\s+awarded\s+to)\b/i` (test only,
so the group is transcribed as a bare alternation). -/
def awardLineRe : RE :=
  reCat [.wb,
    .alt (reCat [litCIS "awarded", wsPlus, litCIS "to"])
         (reCat [litCIS "this", wsPlus, litCIS "certificate", wsPlus,
                 litCIS "awarded", wsPlus, litCIS "to"]),
    .wb]

/-- `/\b(has\s+passed|completed\s+all\s+course\s+work|course\s+work)\b/i` -/
def recipientStopRe : RE :=
  reCat [.wb,
    .alt (reCat [litCIS "has", wsPlus, litCIS "passed"])
      (.alt (reCat [litCIS "completed", wsPlus, litCIS "all", wsPlus,
                    litCIS "course", wsPlus, litCIS "work"])
            (reCat [litCIS "course", wsPlus, litCIS "work"])),
    .wb]

/-- `/\b(has\s+passed|successfully\s+completed|completed\s+all\s+course\s+work)\b.*$/i`
(the first `replace` of `cleanupName`). -/
def cleanupPhraseRe : RE :=
  reCat [.wb,
    .alt (reCat [litCIS "has", wsPlus, litCIS "passed"])
      (.alt (reCat [litCIS "successfully", wsPlus, litCIS "completed"])
            (reCat [litCIS "completed", wsPlus, litCIS "all", wsPlus,
                    litCIS "course", wsPlus, litCIS "work"])),
    .wb, .rep notNl 0 none false, .eos]

/-- `/awarded\s+to\s*\n+([\s\S]{0,120}?)\n+has\s+passed/i` -/
def blockRecipientRe : RE :=
  reCat [litCIS "awarded", wsPlus, litCIS "to", wsStar, nlPlus,
    .grp (.rep (fun _ => true) 0 (some 120) true), nlPlus,
    litCIS "has", wsPlus, litCIS "passed"]

/-- `([A-Z][A-Za-z'.,\-\s]{2,80})` (group of the recipient fallbacks). -/
def recipientGrp : RE :=
  .grp (.seq (.cls asciiAlpha) (.rep nameBody 2 (some 80) false))

/-- The four `recipientPatterns`, in source order. -/
def recipientPatterns : List RE :=
  [ reCat [.alt (litCIS "awarded")
            (.alt (litCIS "presented") (.alt (litCIS "issued") (litCIS "granted"))),
          wsPlus, litCIS "to", wsStar, reOpt (.cls colonDash), wsStar, recipientGrp],
    reCat [.alt (litCIS "participant")
            (.alt (litCIS "student")
              (.alt (litCIS "member") (.alt (litCIS "recipient") (litCIS "name")))),
          wsStar, .cls colonDash, wsStar, recipientGrp],
    reCat [litCIS "this certifies that", wsPlus, recipientGrp],
    reCat [litCIS "completed by", wsStar, reOpt (.cls colonDash), wsStar, recipientGrp] ]

/-- `/\bcompleted\s+all\s+course\s+work\s+in\b/i` -/
def courseWorkLineRe : RE :=
  reCat [.wb, litCIS "completed", wsPlus, litCIS "all", wsPlus,
         litCIS "course", wsPlus, litCIS "work", wsPlus, litCIS "in", .wb]

/-- `/\(\s*\d+(?:\.\d+)?\s*hours?\s*\)/i` -/
def hoursParenRe : RE :=
  reCat [chEx '(', wsStar, digPlus, fracOpt, wsStar,
         litCIS "hour", reOpt (chCI 's'), wsStar, chEx ')']

/-- `/\b(log\s+number|date|location|director)\b/i` -/
def classStopWordsRe : RE :=
  reCat [.wb,
    .alt (reCat [litCIS "log", wsPlus, litCIS "number"])
      (.alt (litCIS "date") (.alt (litCIS "location") (litCIS "director"))),
    .wb]

/-- `/^[A-Z]{2,6}-\d{2,4}-[A-Z0-9]{2,8}-\d{4}\b/i` -/
def classIdLineRe : RE :=
  reCat [.bos, .rep asciiAlpha 2 (some 6) false, chEx '-',
         .rep isDigitC 2 (some 4) false, chEx '-',
         .rep alnum 2 (some 8) false, chEx '-',
         .rep isDigitC 4 (some 4) false, .wb]

/-- `/completed\s+all\s+course\s+work\s+in\s*\n+([\s\S]{0,180}?)\n+\(?\s*\d+(?:\.\d+)?\s*hours?\s*\)?/i` -/
def classBlockRe : RE :=
  reCat [litCIS "completed", wsPlus, litCIS "all", wsPlus, litCIS "course",
         wsPlus, litCIS "work", wsPlus, litCIS "in", wsStar, nlPlus,
         .grp (.rep (fun _ => true) 0 (some 180) true), nlPlus,
         reOpt (chEx '('), wsStar, digPlus, fracOpt, wsStar,
         litCIS "hour", reOpt (chCI 's'), wsStar, reOpt (chEx ')')]

/-- `([^\n]{3,120})` (group of the class-title fallbacks). -/
def classGrp : RE := .grp (.rep notLf 3 (some 120) false)

/-- The four `classPatterns`, in source order. -/
def classPatterns : List RE :=
  [ reCat [.alt (litCIS "course")
            (.alt (litCIS "class") (.alt (litCIS "training") (litCIS "program"))),
          wsStar, reOpt (.alt (litCIS "title") (litCIS "name")), wsStar,
          .cls colonDash, wsStar, classGrp],
    reCat [litCIS "has successfully completed", wsPlus, classGrp],
    reCat [litCIS "successful completion of", wsPlus, classGrp],
    reCat [litCIS "successfully completed", wsPlus, classGrp] ]

/-- `/\s+(on|dated?)\s+.*$/i` (stripped off a class-title candidate). -/
def onDatedRe : RE :=
  reCat [wsPlus,
    .alt (litCIS "on") (.seq (litCIS "date") (reOpt (chCI 'd'))),
    wsPlus, .rep notNl 0 none false, .eos]

/-- `(\d+(?:\.\d+)?)` (the hours capture). -/
def hoursGrp : RE := .grp (.seq digPlus fracOpt)

/-- `/total\s*(?:training\s*)?hours?\s*[:\-]?\s*(\d+(?:\.\d+)?)/i` -/
def hoursLabeledRe : RE :=
  reCat [litCIS "total", wsStar, reOpt (.seq (litCIS "training") wsStar),
         litCIS "hour", reOpt (chCI 's'), wsStar, reOpt (.cls colonDash),
         wsStar, hoursGrp]

/-- `/(\d+(?:\.\d+)?)\s*(?:clock\s*)?(?:hours?|hrs?)\b/i` -/
def hoursBareRe : RE :=
  reCat [hoursGrp, wsStar, reOpt (.seq (litCIS "clock") wsStar),
         .alt (.seq (litCIS "hour") (reOpt (chCI 's')))
              (.seq (litCIS "hr") (reOpt (chCI 's'))),
         .wb]

/-- `/hours\s*completed\s*[:\-]?\s*(\d+(?:\.\d+)?)/i` -/
def hoursCompletedRe : RE :=
  reCat [litCIS "hours", wsStar, litCIS "completed", wsStar,
         reOpt (.cls colonDash), wsStar, hoursGrp]

/-- The three `hoursPatterns`, in source order. -/
def hoursPatterns : List RE := [hoursLabeledRe, hoursBareRe, hoursCompletedRe]

/-- `/\b([A-Z]{2,6}-\d{2,4}-[A-Z0-9]{2,8}-\d{4})\b/i` -/
def mfriIdRe : RE :=
  reCat [.wb,
    .grp (reCat [.rep asciiAlpha 2 (some 6) false, chEx '-',
                 .rep isDigitC 2 (some 4) false, chEx '-',
                 .rep alnum 2 (some 8) false, chEx '-',
                 .rep isDigitC 4 (some 4) false]),
    .wb]

/-- `(?:id|number|no\.?|#)` -/
def idLabelRe : RE :=
  .alt (litCIS "id")
    (.alt (litCIS "number")
      (.alt (.seq (litCIS "no") (reOpt (chEx '.'))) (chEx '#')))

/-- `([A-Z0-9][A-Z0-9\-_/]{2,30})` -/
def idTokenGrp : RE := .grp (.seq (.cls alnum) (.rep idBody 2 (some 30) false))

/-- The two `idPatterns`, in source order. -/
def idPatterns : List RE :=
  [ reCat [.alt (litCIS "course") (.alt (litCIS "class") (litCIS "program")),
          wsStar, idLabelRe, wsStar, reOpt (.cls colonDash), wsStar, idTokenGrp],
    reCat [.alt (litCIS "certificate") (litCIS "log"),
          wsStar, idLabelRe, wsStar, reOpt (.cls colonDash), wsStar, idTokenGrp] ]

/-- `/\blog\s*(?:number|no\.?|#)\s*[:\-]?\s*([A-Z0-9\-_/]{2,30})/i` -/
def logRe : RE :=
  reCat [.wb, litCIS "log", wsStar,
    .alt (litCIS "number") (.alt (.seq (litCIS "no") (reOpt (chEx '.'))) (chEx '#')),
    wsStar, reOpt (.cls colonDash), wsStar, .grp (.rep idBody 2 (some 30) false)]

/-- `(?:completion|course|class|issued?|date)` (the date labels). -/
def dateLabelRe : RE :=
  .alt (litCIS "completion")
    (.alt (litCIS "course")
      (.alt (litCIS "class")
        (.alt (.seq (litCIS "issue") (reOpt (chCI 'd'))) (litCIS "date"))))

/-- `([A-Za-z]{3,9}\s+\d{1,2},\s+\d{2,4})` -/
def alphaDateGrp : RE :=
  .grp (reCat [.rep asciiAlpha 3 (some 9) false, wsPlus,
               .rep isDigitC 1 (some 2) false, chEx ',', wsPlus,
               .rep isDigitC 2 (some 4) false])

/-- `(\d{1,2}[\/\-.]\d{1,2}[\/\-.]\d{2,4})` -/
def numDateGrp : RE :=
  .grp (reCat [.rep isDigitC 1 (some 2) false, .cls dateSep,
               .rep isDigitC 1 (some 2) false, .cls dateSep,
               .rep isDigitC 2 (some 4) false])

/-- `/(?:completion|course|class|issued?|date)\s*(?:date)?\s*[:\-]\s*([A-Za-z]{3,9}\s+\d{1,2},\s+\d{2,4})/i` -/
def dateLabeledAlphaRe : RE :=
  reCat [dateLabelRe, wsStar, reOpt (litCIS "date"), wsStar,
         .cls colonDash, wsStar, alphaDateGrp]

/-- `/(?:completion|course|class|issued?|date)\s*(?:date)?\s*[:\-]\s*(\d{1,2}[\/\-.]\d{1,2}[\/\-.]\d{2,4})/i` -/
def dateLabeledNumRe : RE :=
  reCat [dateLabelRe, wsStar, reOpt (litCIS "date"), wsStar,
         .cls colonDash, wsStar, numDateGrp]

/-- `/\b([A-Za-z]{3,9}\s+\d{1,2},\s+\d{2,4})\b/` -/
def dateBareAlphaRe : RE := reCat [.wb, alphaDateGrp, .wb]

/-- `/\b(\d{1,2}[\/\-.]\d{1,2}[\/\-.]\d{2,4})\b/` -/
def dateBareNumRe : RE := reCat [.wb, numDateGrp, .wb]

/-- The four `datePatterns`, in source order. -/
def datePatterns : List RE :=
  [dateLabeledAlphaRe, dateLabeledNumRe, dateBareAlphaRe, dateBareNumRe]

/-- The five `mfriMarkers`, in source order. -/
def mfriMarkers : List RE :=
  [ reCat [.wb, litCIS "this", wsPlus, litCIS "certificate", wsPlus,
           litCIS "awarded", wsPlus, litCIS "to", .wb],
    reCat [.wb, litCIS "has", wsPlus, litCIS "passed", wsPlus, litCIS "all",
           wsPlus, litCIS "examinations", .wb],
    courseWorkLineRe,
    reCat [.wb, litCIS "log", wsPlus, litCIS "number", .wb],
    reCat [.wb, .rep asciiAlpha 2 (some 6) false, chEx '-',
           .rep isDigitC 2 (some 4) false, chEx '-',
           .rep alnum 2 (some 8) false, chEx '-',
           .rep isDigitC 4 (some 4) false, .wb] ]

end CertIntel

namespace CertIntel

/-! ## JS numbers

The numeric values this code base computes (heuristic scores, parsed hour
counts) are small sums, products and quotients of small integers; IEEE
doubles evaluate them exactly, so an exact fraction is a faithful model.
Mathlib's `ℚ` cannot be evaluated by the kernel (its operations do not
reduce), so the model computes with an executable unnormalized fraction
type `JsNum` and states value-level properties through the interpretation
`JsNum.toQ : JsNum → ℚ`.  Two `JsNum`s denote the same JS number iff their
`toQ`s are equal. -/

/-- An unnormalized fraction `n / d`.  Every value the embedded code
builds has `0 < d` (divisions in the source are guarded by non-zero
checks). -/
structure JsNum where
  n : ℤ
  d : ℕ
deriving DecidableEq, Repr

namespace JsNum

/-- Interpretation as a rational. -/
def toQ (a : JsNum) : ℚ := (a.n : ℚ) / (a.d : ℚ)

instance : OfNat JsNum k := ⟨⟨k, 1⟩⟩

def add (a b : JsNum) : JsNum := ⟨a.n * b.d + b.n * a.d, a.d * b.d⟩

def sub (a b : JsNum) : JsNum := ⟨a.n * b.d - b.n * a.d, a.d * b.d⟩

def mul (a b : JsNum) : JsNum := ⟨a.n * b.n, a.d * b.d⟩

/-- `a / b` (sign moved into the numerator so the denominator stays in
`ℕ`).  `b.n = 0` would be JS `Infinity`; every division in the source is
guarded against it. -/
def div (a b : JsNum) : JsNum :=
  if b.n < 0 then ⟨-(a.n * b.d), a.d * b.n.natAbs⟩
  else ⟨a.n * b.d, a.d * b.n.natAbs⟩

def neg (a : JsNum) : JsNum := ⟨-a.n, a.d⟩

/-- `a <= b`, by cross-multiplication (valid for positive denominators). -/
def le (a b : JsNum) : Bool := a.n * b.d ≤ b.n * a.d

/-- `a < b`. -/
def lt (a b : JsNum) : Bool := a.n * b.d < b.n * a.d

/-- `Math.max(a, b)`. -/
def maxJ (a b : JsNum) : JsNum := if lt a b then b else a

/-- `Math.min(a, b)`. -/
def minJ (a b : JsNum) : JsNum := if lt b a then b else a

/-- `Math.abs(a)`. -/
def absJ (a : JsNum) : JsNum := ⟨|a.n|, a.d⟩

/-- `Number.isInteger(a)` (for a fraction with positive denominator). -/
def isInt (a : JsNum) : Bool := a.d ≠ 0 && a.n % (a.d : ℤ) = 0

/-- `parseFloat(a.toFixed(1))`: round to one decimal place, halves away
from zero (the rounding JS `toFixed` performs on the values at hand). -/
def roundTo1 (a : JsNum) : JsNum :=
  if 0 ≤ a.n then ⟨(a.n * 10 * 2 + a.d) / (2 * a.d), 10⟩
  else ⟨-((-a.n * 10 * 2 + a.d) / (2 * a.d)), 10⟩

end JsNum

/-! ## `parseCertificateFields` and its helpers (newer `routes/training.js`) -/

/-- JS truthiness of an optional string field (`null`/`''` are falsy). -/
def jsTruthyO (o : Option Str) : Bool :=
  match o with
  | some s => s ≠ []
  | none => false

/-- `[.,\-\s]` (trailing junk stripped off a name). -/
def trailJunk (c : Char) : Bool := c = '.' || c = ',' || c = '-' || isWs c

/-- `[^A-Za-z'.,\-\s]` replacement target of `cleanupName`. -/
def nameCharOk (c : Char) : Bool := nameBody c

/-- `cleanupName` of the training routes. -/
def cleanupName (value : Str) : Option Str :=
  if value = [] then none
  else
    let s1 := jsReplaceFirstEmpty cleanupPhraseRe (toSingleLine value)
    let s2 := s1.map (fun c => if nameCharOk c then c else ' ')
    let cleaned0 := jsTrim (squashWs s2)
    -- `.replace(/[.,\-\s]+$/, '')`: drop the trailing run of junk chars.
    let cleaned := jsTrim (cleaned0.reverse.dropWhile trailJunk).reverse
    if cleaned = [] then none
    else
      let words := (cleaned.splitOn ' ').filter (· ≠ [])
      if words.length < 2 then none else some cleaned

/-- Value of a digit string. -/
def digitsVal (l : Str) : ℕ :=
  l.foldl (fun a c => a * 10 + (c.toNat - '0'.toNat)) 0

/-- Unsigned part of JS `parseFloat`: digits with an optional fraction,
valued `intp + frac / 10 ^ frac.length` (written over one denominator). -/
def parseUnsignedF (r : Str) : Option JsNum :=
  let intp := r.takeWhile isDigitC
  let rest := r.dropWhile isDigitC
  let frac :=
    match rest with
    | '.' :: r2 => r2.takeWhile isDigitC
    | _ => []
  if intp = [] ∧ frac = [] then none
  else some ⟨(digitsVal intp : ℤ) * 10 ^ frac.length + digitsVal frac,
             10 ^ frac.length⟩

/-- JS `parseFloat`: skip leading whitespace, optional sign, digits,
optional fraction.  (Exponent and `Infinity` forms never occur in the
strings this code base feeds to `parseFloat` — they are all regex captures
of `\d+(\.\d+)?` or form fields — so they are not modelled; `none` stands
for `NaN`.) -/
def parseFloatF (s : Str) : Option JsNum :=
  let t := s.dropWhile isWs
  match t with
  | '-' :: r => (parseUnsignedF r).map JsNum.neg
  | '+' :: r => parseUnsignedF r
  | r => parseUnsignedF r

/-- `toSafeNumber`: `Number.isFinite(parseFloat(value)) ? parsed : null`
(the fractions `parseFloat` can produce are always finite; `none` is the
`NaN` case). -/
def toSafeNumber (value : Str) : Option JsNum := parseFloatF value

/-- `value.replace(/(\d{1,2})\.(\d{1,2})\.(\d{2,4})/, '$1/$2/$3')`:
replace the two dots of the leftmost dotted-date occurrence by slashes.
The quantifiers are greedy, so digit-group extents are tried longest
first. -/
def digitRun (s : Str) (i k : Nat) : Bool :=
  (slice s i (i + k)).length = k && (slice s i (i + k)).all isDigitC

def dotDateAt (s : Str) : Option (Nat × Nat) :=
  -- returns (index of first dot, index of second dot) of the leftmost match
  let third (j2 : Nat) : Option Unit :=
    [4, 3, 2].findSome? fun k3 =>
      if digitRun s (j2 + 1) k3 then some () else none
  let second (j1 : Nat) : Option Nat :=
    [2, 1].findSome? fun k2 =>
      if digitRun s (j1 + 1) k2 && charAt s (j1 + 1 + k2) = some '.' then
        (third (j1 + 1 + k2)).map fun _ => j1 + 1 + k2
      else none
  let tryAt (i : Nat) : Option (Nat × Nat) :=
    [2, 1].findSome? fun k1 =>
      if digitRun s i k1 && charAt s (i + k1) = some '.' then
        (second (i + k1)).map fun j2 => (i + k1, j2)
      else none
  (List.range (s.length + 1)).findSome? tryAt

def dotDateNormalize (s : Str) : Str :=
  match dotDateAt s with
  | some (d1, d2) =>
    s.mapIdx fun i c => if i = d1 || i = d2 then '/' else c
  | none => s

/-- `tryParseDate` of the training routes.  `jsD` is the oracle for the
host `new Date(string)` constructor composed with `toISOString`:
`jsD v = some iso` when `new Date(v)` is a valid date, `none` when it is
an Invalid Date. -/
def tryParseDate (jsD : Str → Option Str) (value : Str) : Option Str :=
  if value = [] then none
  else
    match jsD value with
    | some d => some d
    | none => jsD (dotDateNormalize value)

/-- `ExtractedCertificateFields` as built by `parseCertificateFields`.
`Option Str` fields distinguish `null` (`none`) from a present string;
a present-but-empty string (`some []`) is JS `''`. -/
structure ExtractedFields where
  rawText : Str
  recipientName : Option Str
  trainingClassName : Option Str
  hoursLogged : Option JsNum
  courseIdentifier : Option Str
  logNumber : Option Str
  courseDate : Option Str
  courseDateText : Option Str
  isLikelyMfri : Bool
deriving DecidableEq, Repr

/-- The all-`null` record the parser starts from. -/
def emptyExtracted (text : Str) : ExtractedFields :=
  { rawText := text, recipientName := none, trainingClassName := none,
    hoursLogged := none, courseIdentifier := none, logNumber := none,
    courseDate := none, courseDateText := none, isLikelyMfri := false }

/-- The recipient scan after the award anchor line: up to 3 following
lines, stopping at a stop-phrase line, taking the first line that cleans
up to a plausible name. -/
def scanRecipient : List Str → Option Str
  | [] => none
  | l :: t =>
    if jsTest recipientStopRe l then none
    else
      match cleanupName l with
      | some n => some n
      | none => scanRecipient t

/-- Recipient extraction: anchor-line scan, then the multiline block
regex, then the compact-text fallback patterns. -/
def recipientResult (multiline compact : Str) (lines : List Str) : Option Str :=
  let viaLines :=
    match lines.findIdx? (jsTest awardLineRe) with
    | some idx => scanRecipient ((lines.drop (idx + 1)).take 3)
    | none => none
  match viaLines with
  | some n => some n
  | none =>
    let viaBlock :=
      match jsMatchCap blockRecipientRe multiline with
      | some g => if g ≠ [] then cleanupName g else none
      | none => none
    match viaBlock with
    | some n => some n
    | none =>
      recipientPatterns.findSome? fun p =>
        match jsMatchCap p compact with
        | some g => if g ≠ [] then cleanupName g else none
        | none => none

/-- Collect class-title lines after the course-work anchor (up to 5),
stopping at an hour-count line, a stop-word line, or a course-id line. -/
def collectClassParts : List Str → List Str
  | [] => []
  | l :: t =>
    if jsTest hoursParenRe l then []
    else if jsTest classStopWordsRe l then []
    else if jsTest classIdLineRe l then []
    else l :: collectClassParts t

/-- Does the candidate start with a digit (`/^\d/.test`)? -/
def headIsDigit (s : Str) : Bool :=
  match s with
  | c :: _ => isDigitC c
  | [] => false

/-- Class-title extraction: anchor-line collection, then the multiline
block regex, then the compact-text fallback patterns. -/
def classResult (multiline compact : Str) (lines : List Str) : Option Str :=
  let t1 : Option Str :=
    match lines.findIdx? (jsTest courseWorkLineRe) with
    | some idx =>
      let parts := collectClassParts ((lines.drop (idx + 1)).take 5)
      if parts ≠ [] then some (toSingleLine (joinSep (str " ") parts)) else none
    | none => none
  let t2 : Option Str :=
    if jsTruthyO t1 then t1
    else
      match jsMatchCap classBlockRe multiline with
      | some g => if g ≠ [] then some (toSingleLine g) else t1
      | none => t1
  if jsTruthyO t2 then t2
  else
    match classPatterns.findSome? (fun p =>
        match jsMatchCap p compact with
        | some g =>
          if g = [] then none
          else
            let candidate := jsTrim (jsReplaceFirstEmpty onDatedRe (normalizeWhitespace g))
            if candidate ≠ [] ∧ ¬headIsDigit candidate then some candidate else none
        | none => none) with
    | some c => some c
    | none => t2

/-- The hours loop: first pattern whose capture parses to a number. -/
def hoursResult (compact : Str) : Option JsNum :=
  hoursPatterns.findSome? fun p =>
    match jsMatchCap p compact with
    | some g => if g ≠ [] then toSafeNumber g else none
    | none => none

/-- The course-identifier extraction: structured MFRI code first
(upper-cased), then the generic labeled patterns. -/
def idResult (compact : Str) : Option Str :=
  let c1 : Option Str :=
    match jsMatchCap mfriIdRe compact with
    | some g => if g ≠ [] then some (toUpperStr g) else none
    | none => none
  if jsTruthyO c1 then c1
  else
    match idPatterns.findSome? (fun p =>
        match jsMatchCap p compact with
        | some g => if g ≠ [] then some (jsTrim g) else none
        | none => none) with
    | some c => some c
    | none => c1

/-- The log-number extraction. -/
def logResult (compact : Str) : Option Str :=
  match jsMatchCap logRe compact with
  | some g => if g ≠ [] then some (jsTrim g) else none
  | none => none

/-- The date loop: first pattern whose capture exists and parses;
on a parse failure the loop just moves to the next pattern. -/
def dateResult (jsD : Str → Option Str) (compact : Str) : Option (Str × Str) :=
  datePatterns.findSome? fun p =>
    match jsMatchCap p compact with
    | some g =>
      if g = [] then none
      else
        match tryParseDate jsD g with
        | some iso => some (iso, jsTrim g)
        | none => none
    | none => none

/-- `markerHits`: how many of the five MFRI markers match the compact text. -/
def markerHits (compact : Str) : Nat :=
  mfriMarkers.foldl (fun n p => if jsTest p compact then n + 1 else n) 0

/-- `parseCertificateFields` (newer `routes/training.js`).  `jsD` is the
host `Date`-parser oracle threaded to `tryParseDate`. -/
def parseCertificateFields (jsD : Str → Option Str) (rawText : Str) :
    ExtractedFields :=
  let text := rawText
  let multiline := crToLf (crlfToLf text)
  let lines := ((splitNl multiline).map normalizeWhitespace).filter (· ≠ [])
  let compact := toSingleLine multiline
  if compact = [] then emptyExtracted text
  else
    { rawText := text
      recipientName := recipientResult multiline compact lines
      trainingClassName := classResult multiline compact lines
      hoursLogged := hoursResult compact
      courseIdentifier := idResult compact
      logNumber := logResult compact
      courseDate := (dateResult jsD compact).map (·.1)
      courseDateText := (dateResult jsD compact).map (·.2)
      isLikelyMfri := decide (markerHits compact ≥ 2) }

/-! ## `extractCertificateText` and the `/certificates/extract` gate -/

/-- The `UnreadableDocument` message of `extractCertificateText`. -/
def unreadableMsg : Str := str "Unable to read text from certificate. Try a clearer PDF/image."

/-- The text chunks actually collected for one uploaded file.  `pdf` is
what `pdfParse(buffer)` yields (`none` when the PDF parser throws or the
file is not sent to it; `some t` its `.text`), `ocr` what
`Tesseract.recognize(buffer).data.text` would yield (`none` when OCR
throws).  A chunk is pushed only when the engine ran and returned truthy
text, exactly as in the source. -/
def acqChunks (mime : Str) (pdf ocr : Option Str) : List Str :=
  let mimeL := toLowerStr mime
  let chunks1 :=
    if mimeL = str "application/pdf" then
      match pdf with
      | some t => if t ≠ [] then [t] else []
      | none => []
    else []
  let shouldTryOcr :=
    (str "image/").isPrefixOf mimeL
      || (normalizeWhitespace (joinSep (str " ") chunks1)).length < 80
  if shouldTryOcr then
    match ocr with
    | some t => if t ≠ [] then chunks1 ++ [t] else chunks1
    | none => chunks1
  else chunks1

/-- `extractCertificateText` (newer `routes/training.js`), for an uploaded
file whose buffer is readable; the external engines' outputs are the
`pdf`/`ocr` inputs.  Throws (`Except.error`) exactly when the combined
text is empty or all-whitespace. -/
def extractCertificateText (mime : Str) (pdf ocr : Option Str) :
    Except Str Str :=
  let chunks := acqChunks mime pdf ocr
  let combined := crToLf (crlfToLf (joinSep (str "\n") chunks))
  if normalizeWhitespace combined = [] then .error unreadableMsg
  else .ok combined

/-- The low-confidence refusal message of the `/certificates/extract`
route. -/
def lowConfidenceMsg : Str :=
  str "Certificate format does not match a supported MFRI certificate. Please upload manually and fill in details."

/-- The post-parse gate of the `/certificates/extract` route:
`if (!parsed.isLikelyMfri && (!parsed.recipientName || !parsed.trainingClassName)) throw ...`. -/
def extractGate (parsed : ExtractedFields) : Except Str ExtractedFields :=
  if !parsed.isLikelyMfri
      && (!jsTruthyO parsed.recipientName || !jsTruthyO parsed.trainingClassName) then
    .error lowConfidenceMsg
  else .ok parsed

end CertIntel

namespace CertIntel

/-! ## The certificate-manager front end (newer version of the script)

`normalizeForMatch`, name variants, candidate scoring and the
reconciliation of extracted fields into the form. -/

/-- `[a-z]` (after `toLowerCase`). -/
def lowAlpha (c : Char) : Bool := 'a' ≤ c && c ≤ 'z'

/-- Is `pre` a prefix of `l`? -/
def prefixOfB : Str → Str → Bool
  | [], _ => true
  | _ :: _, [] => false
  | a :: t1, b :: t2 => a = b && prefixOfB t1 t2

/-- `hay.includes(needle)`: contiguous-substring test. -/
def includesSub (hay needle : Str) : Bool :=
  (List.range (hay.length + 1)).any fun i => prefixOfB needle (hay.drop i)

/-- Replace each maximal run of non-allowed chars by one space
(`source.replace(/[^a-z]+/g, ' ')`, resp. with digits kept). -/
def replaceBadRunsAux (ok : Char → Bool) : Bool → Str → Str
  | _, [] => []
  | prevBad, c :: t =>
    if ok c then c :: replaceBadRunsAux ok false t
    else if prevBad then replaceBadRunsAux ok true t
    else ' ' :: replaceBadRunsAux ok true t

/-- `normalizeForMatch(value, { keepNumbers })`. -/
def normalizeForMatch (value : Str) (keepNumbers : Bool := false) : Str :=
  let source := toLowerStr value
  let ok := fun c => lowAlpha c || (keepNumbers && c.isDigit)
  jsTrim (squashWs (replaceBadRunsAux ok false source))

/-- A user record as the front end sees it (missing fields are `''`). -/
structure JsUser where
  firstName : Str
  middleName : Str
  lastName : Str
  displayName : Str
deriving DecidableEq, Repr

/-- JS `Set` built by insertion: deduplicate keeping first occurrences
(`seen` accumulates the values already inserted). -/
def dedupAux (seen : List Str) : List Str → List Str
  | [] => []
  | x :: t => if seen.contains x then dedupAux seen t
              else x :: dedupAux (x :: seen) t

def dedupKeepFirst (l : List Str) : List Str := dedupAux [] l

/-- `getUserNameVariantSet(user)`: the normalized name variants, in
insertion order, empty strings filtered out before insertion. -/
def getUserNameVariantSet (user : JsUser) : List Str :=
  let first := user.firstName
  let middle := user.middleName
  let last := user.lastName
  let display := user.displayName
  let middleInitial := middle.take 1
  let firstInitial := first.take 1
  let candidateValues : List Str :=
    [ first ++ str " " ++ last,
      first ++ str " " ++ middle ++ str " " ++ last,
      first ++ str " " ++ middleInitial ++ str " " ++ last,
      firstInitial ++ str " " ++ last,
      last ++ str ", " ++ first ++ str " " ++ middle,
      display ]
  dedupKeepFirst ((candidateValues.map (fun v => normalizeForMatch v)).filter (· ≠ []))

/-- `parseNameParts(nameValue)`. -/
structure NameParts where
  normalized : Str
  first : Str
  last : Str
  middle : List Str
deriving DecidableEq, Repr

def parseNameParts (nameValue : Str) : NameParts :=
  let normalized := normalizeForMatch nameValue
  let parts := (normalized.splitOn ' ').filter (· ≠ [])
  { normalized := normalized
    first := parts.headD []
    last := if parts.length > 1 then parts.getLastD [] else []
    middle := if parts.length > 2 then (parts.drop 1).dropLast else [] }

/-- The token-overlap ratio scores of `scoreCandidateUser`'s fallback:
`(overlap / searchWords.length) * 70` per variant. -/
def variantScores70 (normalized : Str) (variants : List Str) : List JsNum :=
  let searchWords := (normalized.splitOn ' ').filter (· ≠ [])
  variants.map fun variant =>
    let variantWords := (variant.splitOn ' ').filter (· ≠ [])
    let overlap := (searchWords.filter (fun w => variantWords.contains w)).length
    if searchWords.length ≠ 0 then
      JsNum.mul (JsNum.div ⟨overlap, 1⟩ ⟨searchWords.length, 1⟩) 70
    else 0

/-- The partial-credit accumulation of `scoreCandidateUser`: +45 first
name, +45 last name, +20 display contains "first last", +5 display
contains the middle tokens. -/
def partialCreditScore (search : NameParts)
    (userFirst userLast userDisplay : Str) : JsNum :=
  JsNum.add (JsNum.add (JsNum.add
    (if search.first ≠ [] && userFirst ≠ [] && search.first = userFirst
     then (45 : JsNum) else 0)
    (if search.last ≠ [] && userLast ≠ [] && search.last = userLast
     then (45 : JsNum) else 0))
    (if search.first ≠ [] && search.last ≠ []
        && includesSub userDisplay (search.first ++ str " " ++ search.last)
     then (20 : JsNum) else 0))
    (if search.middle ≠ []
        && includesSub userDisplay (joinSep (str " ") search.middle)
     then (5 : JsNum) else 0)

/-- `variantScores.length ? Math.max(...variantScores) : 0`. -/
def maxOfScores (l : List JsNum) : JsNum :=
  match l with
  | [] => 0
  | h :: t => t.foldl JsNum.maxJ h

/-- `scoreCandidateUser(searchName, user)`. -/
def scoreCandidateUser (searchName : Str) (user : JsUser) : JsNum :=
  let search := parseNameParts searchName
  let userFirst := normalizeForMatch user.firstName
  let userLast := normalizeForMatch user.lastName
  let userDisplay := normalizeForMatch user.displayName
  let variants := getUserNameVariantSet user
  if search.normalized ≠ [] && variants.contains search.normalized then 100
  else
    let s1 := partialCreditScore search userFirst userLast userDisplay
    let s2 : JsNum :=
      if JsNum.lt s1 60 && search.normalized ≠ [] then
        let best := maxOfScores (variantScores70 search.normalized variants)
        JsNum.maxJ s1 best
      else s1
    JsNum.minJ 100 s2

end CertIntel

namespace CertIntel

/-! ## `findUserByName` and `findPossibleUsersByName`

Both functions fetch candidate users from `/training/users/search` and
then score them purely; the fetched array (resp. the de-duplicated union
of the per-query results) is the `users`/`pool` argument of the models
below, and the scoring/selection applied to it is transcribed exactly. -/

/-- The per-variant token-overlap scores of `findUserByName`'s extra loop:
`(overlap / searchWords.length) * 100` per variant (note: `* 100`, not the
`* 70` used by `scoreCandidateUser`). -/
def variantScores100 (normalizedSearch : Str) (variants : List Str) : List JsNum :=
  variants.map fun variant =>
    let searchWords := (normalizedSearch.splitOn ' ').filter (· ≠ [])
    let variantWords := (variant.splitOn ' ').filter (· ≠ [])
    let overlap := (searchWords.filter (fun w => variantWords.contains w)).length
    if searchWords.length > 0 then
      JsNum.mul (JsNum.div ⟨overlap, 1⟩ ⟨searchWords.length, 1⟩) 100
    else 0

/-- One iteration of `users.forEach` in `findUserByName`. -/
def findUserStep (nameString normalizedSearch : Str) (searchParts : NameParts)
    (acc : Option JsUser × JsNum) (user : JsUser) : Option JsUser × JsNum :=
  let score := scoreCandidateUser nameString user
  let acc1 := if JsNum.lt acc.2 score then (some user, score) else acc
  let userFirst := normalizeForMatch user.firstName
  let userLast := normalizeForMatch user.lastName
  if searchParts.first ≠ [] && searchParts.last ≠ []
      && userFirst = searchParts.first && userLast = searchParts.last then
    (some user, 100)
  else
    let userVariants := getUserNameVariantSet user
    if userVariants.contains normalizedSearch then (some user, 100)
    else
      (variantScores100 normalizedSearch userVariants).foldl
        (fun a sc => if JsNum.lt a.2 sc then (some user, sc) else a) acc1

/-- `findUserByName(nameString)` over the fetched `users`. -/
def findUserByName (nameString : Str) (users : List JsUser) : Option JsUser :=
  if nameString = [] then none
  else if users = [] then none
  else
    let normalizedSearch := normalizeForMatch nameString
    let searchParts := parseNameParts nameString
    let result := users.foldl (findUserStep nameString normalizedSearch searchParts) (none, 0)
    if JsNum.le 70 result.2 then result.1 else none

/-- A scored candidate (`{ user, score }`). -/
structure ScoredUser where
  user : JsUser
  score : JsNum
deriving DecidableEq, Repr

/-- Stable insertion preserving non-increasing scores (the effect of
`.sort((a, b) => b.score - a.score)` with a stable sort). -/
def insertByScoreDesc (e : ScoredUser) : List ScoredUser → List ScoredUser
  | [] => [e]
  | h :: t => if JsNum.lt h.score e.score then e :: h :: t
              else h :: insertByScoreDesc e t

def sortByScoreDesc (l : List ScoredUser) : List ScoredUser :=
  l.foldl (fun acc e => insertByScoreDesc e acc) []

/-- `findPossibleUsersByName(nameString)` over the de-duplicated candidate
`pool`. -/
def findPossibleUsersByName (nameString : Str) (pool : List JsUser) :
    List ScoredUser :=
  let search := parseNameParts nameString
  if search.normalized = [] then []
  else
    ((sortByScoreDesc
        ((pool.map fun u => ⟨u, scoreCandidateUser nameString u⟩).filter
          (fun e => JsNum.le 60 e.score))).take 6)

/-! ## `findTrainingClassOption` and `applyAutofillResult` -/

/-- `findTrainingClassOption(name, selectElement)`: `options` models the
select's options as (value, textContent) pairs of the options with truthy
values — the same data the module-level cache stores. -/
def findTrainingClassOption (name : Str) (options : List (Str × Str)) :
    Option (Str × Str) :=
  if name = [] then none
  else
    let normalizedTarget := normalizeForMatch name true
    if normalizedTarget = [] then none
    else
      let res := options.foldl (fun (acc : Option (Str × Str) × JsNum) opt =>
        let normalized := normalizeForMatch opt.2 true
        if normalized = [] then acc
        else if normalized = normalizedTarget then (some opt, 100)
        else
          let score : JsNum :=
            if includesSub normalized normalizedTarget
                || includesSub normalizedTarget normalized then
              JsNum.sub 85 (JsNum.absJ (JsNum.sub ⟨normalized.length, 1⟩ ⟨normalizedTarget.length, 1⟩))
            else
              let targetWords := (normalizedTarget.splitOn ' ').filter (· ≠ [])
              let optionWords := (normalized.splitOn ' ').filter (· ≠ [])
              let overlap := (targetWords.filter (fun w => optionWords.contains w)).length
              if overlap ≠ 0 then
                JsNum.mul (JsNum.div ⟨overlap, 1⟩ ⟨targetWords.length, 1⟩) 70
              else 0
          if JsNum.lt acc.2 score then (some opt, score) else acc) (none, 0)
      if JsNum.le 45 res.2 then res.1 else none

/-- The status levels of `setAutofillStatus`. -/
inductive Level where
  | success | info | warning | danger | muted
deriving DecidableEq, Repr

/-- The advisory messages `applyAutofillResult` pushes.  Each constructor
stands for one template literal of the source; its argument is the datum
interpolated (the UI renders dates with `toLocaleDateString` — the model
carries the ISO string). -/
inductive Msg where
  | matchedClass (t : Str)
  | suggestedClass (t : Str)
  | dateSet (iso : Str)
  | suggestedDate (t : Str)
  | hoursSet (q : JsNum)
  | courseNumberSet (c : Str)
  | suggestedCourseNumber (c : Str)
  | detectedRecipient (r : Str)
  | recipientMismatch (r : Str)
  | courseId (c : Str)
  | logNumber (n : Str)
  | noRecognizableFields
deriving DecidableEq, Repr

/-- The `extracted` record the front end receives from
`/certificates/extract` (the parse result minus `rawText`). -/
structure ClientExtracted where
  recipientName : Option Str
  trainingClassName : Option Str
  hoursLogged : Option JsNum
  courseIdentifier : Option Str
  logNumber : Option Str
  courseDate : Option Str
  courseDateText : Option Str
  isLikelyMfri : Bool
deriving DecidableEq, Repr

/-- Which DOM pieces the reconciliation context has (the `context` object
of `applyAutofillResult`), plus the class-select options. -/
structure AutofillContext where
  statusElement : Bool
  trainingClassSelect : Bool
  classOptions : List (Str × Str)
  contextType : Bool
  startDateInput : Bool
  endDateInput : Bool
  hoursInput : Bool
  courseNumberInput : Bool
deriving DecidableEq, Repr

/-- The mutable form/DOM state `applyAutofillResult` reads and writes:
input values, the pending class-suggestion data, and the selected-person
display (read-only for this function). -/
structure AutofillState where
  trainingClassValue : Str
  startDateValue : Str
  endDateValue : Str
  hoursValue : Option JsNum
  courseNumberValue : Str
  pendingClassName : Str
  pendingHours : Option JsNum
  classSuggestionShown : Option Str
  selectedUserNameText : Str
  selectedUserDetails : Option JsUser
deriving DecidableEq, Repr

/-- Result: the updated state plus what `setAutofillStatus` is called with
(`none` when the function returns before reaching a status write). -/
structure ApplyOut where
  state : AutofillState
  status : Option (List Msg × Level)
deriving DecidableEq, Repr

/-- The training-class block of `applyAutofillResult` (match against the
catalog, else suggest and offer class creation). -/
def classBlock (e : ClientExtracted) (ctx : AutofillContext)
    (st : AutofillState) : AutofillState × List Msg × Level :=
  if ctx.trainingClassSelect && jsTruthyO e.trainingClassName then
    let t := e.trainingClassName.getD []
    match findTrainingClassOption t ctx.classOptions with
    | some opt =>
      let stA := { st with trainingClassValue := opt.1 }
      let stB := if ctx.contextType then { stA with classSuggestionShown := none } else stA
      (stB, [Msg.matchedClass opt.2], Level.success)
    | none =>
      -- showClassSuggestion(context, t, extracted.hoursLogged)
      let stA := { st with
        pendingClassName := t,
        pendingHours := match e.hoursLogged with
          | some h => some h
          | none => st.pendingHours,
        classSuggestionShown := some t }
      (stA, [Msg.suggestedClass t], Level.warning)
  else
    let stA := if ctx.contextType then { st with classSuggestionShown := none } else st
    (stA, [], Level.success)

/-- The date block of `applyAutofillResult`. -/
def dateBlock (jsValidDate : Str → Bool) (e : ClientExtracted)
    (ctx : AutofillContext) (st : AutofillState) (lvl : Level) :
    AutofillState × List Msg × Level :=
  if ctx.startDateInput && jsTruthyO e.courseDate then
    let cd := e.courseDate.getD []
    let isoDate := cd.take 10
    let stA := { st with startDateValue := isoDate }
    let stB := if ctx.endDateInput then { stA with endDateValue := isoDate } else stA
    (stB, if jsValidDate cd then [Msg.dateSet cd] else [], lvl)
  else if jsTruthyO e.courseDateText then
    (st, [Msg.suggestedDate (e.courseDateText.getD [])],
     if lvl = Level.success then Level.warning else lvl)
  else (st, [], lvl)

/-- The hours block of `applyAutofillResult`. -/
def hoursBlock (e : ClientExtracted) (ctx : AutofillContext)
    (st : AutofillState) : AutofillState × List Msg :=
  if ctx.hoursInput then
    match e.hoursLogged with
    | some q =>
      let hv := if JsNum.isInt q then q else JsNum.roundTo1 q
      ({ st with hoursValue := some hv }, [Msg.hoursSet hv])
    | none => (st, ([] : List Msg))
  else (st, [])

/-- The course-number block of `applyAutofillResult`; the `Bool` is
`courseIdentifierHandled`. -/
def courseNumBlock (e : ClientExtracted) (ctx : AutofillContext)
    (st : AutofillState) (lvl : Level) :
    AutofillState × List Msg × Level × Bool :=
  if ctx.courseNumberInput && jsTruthyO e.courseIdentifier then
    let c := e.courseIdentifier.getD []
    ({ st with courseNumberValue := c }, [Msg.courseNumberSet c], lvl, true)
  else if jsTruthyO e.courseIdentifier then
    let c := e.courseIdentifier.getD []
    (st, [Msg.suggestedCourseNumber c],
     (if lvl = Level.success then Level.info else lvl), true)
  else (st, [], lvl, false)

/-- The candidate names the recipient comparison checks the normalized
extracted name against: the normalized selected display name (when
non-empty) plus the selected person's variant set. -/
def recipientCandidateNames (st : AutofillState) : List Str :=
  let normalizedSelectedDisplay := normalizeForMatch (jsTrim st.selectedUserNameText)
  (if normalizedSelectedDisplay ≠ [] then [normalizedSelectedDisplay] else [])
  ++ (match st.selectedUserDetails with
      | some u => getUserNameVariantSet u
      | none => [])

/-- The recipient block of `applyAutofillResult`: messages and level only
(the source pushes messages and may set the level; it writes no form
field). -/
def recipientBlock (e : ClientExtracted) (st : AutofillState) (lvl : Level) :
    List Msg × Level :=
  if jsTruthyO e.recipientName then
    let r := e.recipientName.getD []
    let normalizedRecipient := normalizeForMatch r
    let candidateNames := recipientCandidateNames st
    if normalizedRecipient ≠ [] && candidateNames.contains normalizedRecipient then
      ([Msg.detectedRecipient r], lvl)
    else if normalizedRecipient ≠ [] then
      ([Msg.recipientMismatch r], Level.warning)
    else ([], lvl)
  else ([], lvl)

/-- The trailing course-id / log-number messages. -/
def tailMsgs (e : ClientExtracted) (handled : Bool) : List Msg :=
  if !handled && jsTruthyO e.courseIdentifier then
    [Msg.courseId (e.courseIdentifier.getD [])]
  else if jsTruthyO e.logNumber then
    [Msg.logNumber (e.logNumber.getD [])]
  else []

/-- `applyAutofillResult(extracted, context)` (newer front-end script).
`jsValidDate cd` models `!Number.isNaN(new Date(cd).getTime())` for the
date-preview message. -/
def applyAutofillResult (jsValidDate : Str → Bool)
    (extracted : Option ClientExtracted) (ctx : AutofillContext)
    (st : AutofillState) : ApplyOut :=
  if !ctx.statusElement then { state := st, status := none }
  else
    match extracted with
    | none => { state := st, status := some ([.noRecognizableFields], .warning) }
    | some e =>
      let (st1, msgs1, lvl1) := classBlock e ctx st
      let (st2, msgs2, lvl2) := dateBlock jsValidDate e ctx st1 lvl1
      let (st3, msgs3) := hoursBlock e ctx st2
      let (st4, msgs4, lvl4, handled) := courseNumBlock e ctx st3 lvl2
      let (msgs5, lvl5) := recipientBlock e st4 lvl4
      let msgs6 := tailMsgs e handled
      let msgsAll := msgs1 ++ msgs2 ++ msgs3 ++ msgs4 ++ msgs5 ++ msgs6
      if msgsAll = [] then
        { state := st4, status := some ([Msg.noRecognizableFields], Level.warning) }
      else
        { state := st4, status := some (msgsAll, lvl5) }

end CertIntel

namespace CertIntel

/-! ## Concrete inputs used by witnesses and counterexamples -/

/-- Oracle for the host `new Date(string)` parser restricted to inputs on
which it yields an Invalid Date.  The only string the accompanying
theorems consult it at is `"99/99/9999"` (month 99 — Invalid Date in the
host); the texts of the other concrete runs match no date pattern, so the
oracle is never called there. -/
def jsDateInvalid : Str → Option Str := fun _ => none

/-- The §8 scenario text, exactly as the specification writes it. -/
def c4text : Str :=
  str "...AWARDED TO\nJane A. Doe\nHAS PASSED ALL COURSE WORK IN\nEmergency Vehicle Operations\n(12.0 Hours)\nLOG NUMBER EVOC-24-0091"

/-- A certificate text whose date matches the labeled numeric date
pattern but does not parse as a date. -/
def c6text : Str := str "date: 99/99/9999"

/-- A directory record: John Quincy Smith, displayed "John Q. Smith". -/
def johnQuincy : JsUser :=
  { firstName := str "John", middleName := str "Quincy",
    lastName := str "Smith", displayName := str "John Q. Smith" }

/-- A query whose token overlap with "john quincy smith" is 3/4. -/
def johnQuery : Str := str "john quincy smith x"

/-- Reconciliation context for the recipient counterexample: status
element and hours input present, nothing else. -/
def c8ctx : AutofillContext :=
  { statusElement := true, trainingClassSelect := false, classOptions := [],
    contextType := false, startDateInput := false, endDateInput := false,
    hoursInput := true, courseNumberInput := false }

/-- Form state with Jane Doe selected. -/
def c8state : AutofillState :=
  { trainingClassValue := [], startDateValue := [], endDateValue := [],
    hoursValue := none, courseNumberValue := [], pendingClassName := [],
    pendingHours := none, classSuggestionShown := none,
    selectedUserNameText := str "Jane Doe",
    selectedUserDetails := some
      { firstName := str "Jane", middleName := [],
        lastName := str "Doe", displayName := str "Jane Doe" } }

/-- An extraction whose recipient name is non-empty (`"1234"`) but
normalizes to the empty string, plus two logged hours. -/
def c8extracted : ClientExtracted :=
  { recipientName := some (str "1234"), trainingClassName := none,
    hoursLogged := some ⟨2, 1⟩, courseIdentifier := none, logNumber := none,
    courseDate := none, courseDateText := none, isLikelyMfri := false }

end CertIntel

namespace CertIntel

/-! ## Specification-side definitions used by the theorems -/

/-- Digits and the decimal point — the only characters the hours capture
group `(\d+(?:\.\d+)?)` can consume. -/
def digitDot (c : Char) : Bool := isDigitC c || c = '.'

/-- Every character class occurring in `r` is contained in `P`. -/
def ClsBound : RE → (Char → Bool) → Prop
  | .eps, _ => True
  | .cls p, P => ∀ c, p c = true → P c = true
  | .seq a b, P => ClsBound a P ∧ ClsBound b P
  | .alt a b, P => ClsBound a P ∧ ClsBound b P
  | .rep p _ _ _, P => ∀ c, p c = true → P c = true
  | .grp r, P => ClsBound r P
  | .wb, _ => True
  | .bos, _ => True
  | .eos, _ => True

/-- Every character class occurring under a capture group of `r` is
contained in `P`. -/
def GrpBound : RE → (Char → Bool) → Prop
  | .seq a b, P => GrpBound a P ∧ GrpBound b P
  | .alt a b, P => GrpBound a P ∧ GrpBound b P
  | .grp r, P => ClsBound r P
  | _, _ => True

/-- The combined selection score `findUserByName` effectively maximizes
per candidate: the `scoreCandidateUser` value, 100 for an exact
first+last or variant-set hit, and the per-variant token-overlap ratio
scaled by 100 (not by 70 as in `scoreCandidateUser`). -/
def combinedScoreQ (nameString : Str) (user : JsUser) : ℚ :=
  let normalizedSearch := normalizeForMatch nameString
  let searchParts := parseNameParts nameString
  let userFirst := normalizeForMatch user.firstName
  let userLast := normalizeForMatch user.lastName
  let userVariants := getUserNameVariantSet user
  max (scoreCandidateUser nameString user).toQ
    (max (if searchParts.first ≠ [] && searchParts.last ≠ []
              && userFirst = searchParts.first && userLast = searchParts.last
          then (100 : ℚ) else 0)
      (max (if userVariants.contains normalizedSearch then (100 : ℚ) else 0)
        (((variantScores100 normalizedSearch userVariants).map JsNum.toQ).foldr max 0)))

/-- A `JsNum` with nonnegative numerator and positive denominator. -/
def JsNum.Good (a : JsNum) : Prop := 0 ≤ a.n ∧ 0 < a.d

/-- Invariant of the `findUserByName` accumulator `(bestMatch,
highestScore)`: the score is well-formed and is bounded by the combined
score of the candidate it points at (0 with no candidate). -/
def FindInv (name : Str) (acc : Option JsUser × JsNum) : Prop :=
  (∀ u, acc.1 = some u → acc.2.toQ ≤ combinedScoreQ name u) ∧
    (acc.1 = none → acc.2 = ⟨0, 1⟩) ∧ acc.2.Good

/-- Non-increasing-score adjacency, as the sort comparator decides it. -/
def ScoreGe (a b : ScoredUser) : Prop := JsNum.lt a.score b.score = false

/-- Does the regex contain a capture group? -/
def hasGrp : RE → Bool
  | .seq a b => hasGrp a || hasGrp b
  | .alt a b => hasGrp a || hasGrp b
  | .grp _ => true
  | _ => false

end CertIntel

namespace CertIntel

/-! ## Helper lemmas -/

theorem uint32_le_iff_toNat_le (a b : UInt32) : a ≤ b ↔ a.toNat ≤ b.toNat := by
  simp [UInt32.le_def, BitVec.le_def, UInt32.toNat]

/-- ASCII upper-casing never yields a lower-case letter. -/
theorem toUpper_isLower_false (c : Char) : (Char.toUpper c).isLower = false := by
  unfold Char.toUpper
  by_cases h : c.toNat ≥ 97 ∧ c.toNat ≤ 122
  · simp only [h, if_true]
    have hvalid : (c.toNat - 32).isValidChar := by
      unfold Nat.isValidChar
      omega
    have hval : (Char.ofNat (c.toNat - 32)).val.toNat = c.toNat - 32 := by
      simp [Char.ofNat, hvalid, Char.ofNatAux, UInt32.toNat]
    unfold Char.isLower
    have h1 : ¬((97 : UInt32) ≤ (Char.ofNat (c.toNat - 32)).val) := by
      rw [uint32_le_iff_toNat_le, hval]
      have : (97 : UInt32).toNat = 97 := rfl
      omega
    simp only [ge_iff_le]
    rw [Bool.and_eq_false_iff]
    left
    simpa using h1
  · simp only [h, if_false]
    unfold Char.isLower
    rw [Bool.and_eq_false_iff]
    rcases Nat.lt_or_ge c.toNat 97 with h2 | h2
    · left
      simp only [ge_iff_le, decide_eq_false_iff_not]
      rw [uint32_le_iff_toNat_le]
      have : (97 : UInt32).toNat = 97 := rfl
      unfold Char.toNat at h2
      omega
    · right
      simp only [decide_eq_false_iff_not]
      rw [uint32_le_iff_toNat_le]
      have : (122 : UInt32).toNat = 122 := rfl
      unfold Char.toNat at h2 h
      omega

theorem mem_dedupAux {x : Str} : ∀ (seen : List Str) (l : List Str),
    x ∈ dedupAux seen l → x ∈ l := by
  intro seen l
  induction l generalizing seen with
  | nil => simp [dedupAux]
  | cons y t ih =>
    intro hx
    simp only [dedupAux] at hx
    by_cases hseen : seen.contains y = true
    · rw [if_pos hseen] at hx
      exact List.mem_cons_of_mem _ (ih _ hx)
    · rw [if_neg hseen] at hx
      rcases List.mem_cons.mp hx with h | h
      · exact h ▸ List.mem_cons_self _ _
      · exact List.mem_cons_of_mem _ (ih _ h)

theorem variant_ne_nil {u : JsUser} {v : Str}
    (hv : v ∈ getUserNameVariantSet u) : v ≠ [] := by
  unfold getUserNameVariantSet dedupKeepFirst at hv
  have := mem_dedupAux _ _ hv
  simp only [List.mem_filter] at this
  simpa using this.2

theorem parseNameParts_of_norm_nil {q : Str} (hq : normalizeForMatch q = []) :
    parseNameParts q = ⟨[], [], [], []⟩ := by
  simp [parseNameParts, hq]

theorem score_eq_zero_of_norm_nil (q : Str) (u : JsUser)
    (hq : normalizeForMatch q = []) :
    scoreCandidateUser q u = ⟨0, 1⟩ := by
  unfold scoreCandidateUser partialCreditScore
  rw [parseNameParts_of_norm_nil hq]
  simp only [ne_eq, not_true_eq_false, Bool.false_and, Bool.and_false,
    decide_False, if_false, Bool.false_eq_true]
  decide

/-! ## Claims -/

/-- C2: whenever the extractor's `isLikelyMfri` flag is false and both the
recipient name and the class name are absent, the `/certificates/extract`
route refuses with the low-confidence message (manual entry required)
instead of returning an extraction payload for auto-fill. -/
theorem C2_low_confidence_refusal (p : ExtractedFields)
    (hflag : p.isLikelyMfri = false) (hrec : p.recipientName = none)
    (hcls : p.trainingClassName = none) :
    extractGate p = Except.error lowConfidenceMsg ∧
      ∀ q, extractGate p ≠ Except.ok q := by
  have h : extractGate p = Except.error lowConfidenceMsg := by
    simp [extractGate, hflag, hrec, hcls, jsTruthyO]
  exact ⟨h, fun q hq => by rw [h] at hq; cases hq⟩

/-- Witness for C2 at the all-empty parse result. -/
theorem C2_low_confidence_refusal_witness :
    extractGate (emptyExtracted []) = Except.error lowConfidenceMsg ∧
      ∀ q, extractGate (emptyExtracted []) ≠ Except.ok q :=
  C2_low_confidence_refusal (emptyExtracted []) rfl rfl rfl

/-- C10: the name-variant set never contains the empty string — for any
person record, including ones with empty or letter-free name fields — and
a query whose normalization is empty scores 0 (in particular it can never
score an exact-variant 100) against any person. -/
theorem C10_no_empty_variant (u : JsUser) :
    [] ∉ getUserNameVariantSet u ∧
      ∀ q : Str, normalizeForMatch q = [] →
        (scoreCandidateUser q u).toQ = 0 := by
  refine ⟨fun h => variant_ne_nil h rfl, fun q hq => ?_⟩
  rw [score_eq_zero_of_norm_nil q u hq]
  simp [JsNum.toQ]

/-- Witness for C10: the all-punctuation query `"!!!"` against a concrete
record. -/
theorem C10_no_empty_variant_witness :
    [] ∉ getUserNameVariantSet johnQuincy ∧
      (scoreCandidateUser (str "!!!") johnQuincy).toQ = 0 :=
  ⟨(C10_no_empty_variant johnQuincy).1,
   (C10_no_empty_variant johnQuincy).2 (str "!!!") (by decide)⟩

end CertIntel

namespace CertIntel

/-- C9: when `parseCertificateFields` finds the course identifier via the
structured hyphenated MFRI code pattern, the returned `courseIdentifier`
is the capture fully upper-cased — it contains no lower-case letter even
when the matched certificate text was lower-case. -/
theorem C9_mfri_identifier_uppercased (jsD : Str → Option Str) (text g : Str)
    (hm : jsMatchCap mfriIdRe (toSingleLine (crToLf (crlfToLf text))) = some g)
    (hg : g ≠ []) :
    (parseCertificateFields jsD text).courseIdentifier = some (toUpperStr g) ∧
      ∀ c ∈ toUpperStr g, c.isLower = false := by
  constructor
  · by_cases hc : toSingleLine (crToLf (crlfToLf text)) = []
    · rw [hc] at hm
      rw [show jsMatchCap mfriIdRe ([] : Str) = none from by decide] at hm
      cases hm
    · have hup : toUpperStr g ≠ [] := by
        simpa [toUpperStr] using hg
      unfold parseCertificateFields
      simp only [hc, if_false, reduceIte]
      unfold idResult
      rw [hm]
      simp [hg, jsTruthyO, hup]
  · intro c hcmem
    rcases List.mem_map.mp hcmem with ⟨a, _, rfl⟩
    exact toUpper_isLower_false a

/-- Witness for C9: a lower-case `ems-202-s025-2025` in the text comes
back as `EMS-202-S025-2025`. -/
theorem C9_mfri_identifier_uppercased_witness :
    (parseCertificateFields jsDateInvalid (str "ems-202-s025-2025")).courseIdentifier
        = some (toUpperStr (str "ems-202-s025-2025")) ∧
      ∀ c ∈ toUpperStr (str "ems-202-s025-2025"), c.isLower = false :=
  C9_mfri_identifier_uppercased jsDateInvalid (str "ems-202-s025-2025")
    (str "ems-202-s025-2025") (by decide) (by decide)

/-- C6 (counterexample): on `"date: 99/99/9999"` the labeled numeric date
pattern matches with capture `99/99/9999` and the tolerant parse fails,
yet `parseCertificateFields` leaves `courseDateText` (and `courseDate`)
unset — the matched text is dropped, contradicting the claim that the raw
matched text is retained in `courseDateText`. -/
theorem C6_unparseable_date_counterexample :
    jsMatchCap dateLabeledNumRe (toSingleLine (crToLf (crlfToLf c6text)))
        = some (str "99/99/9999")
    ∧ tryParseDate jsDateInvalid (str "99/99/9999") = none
    ∧ (parseCertificateFields jsDateInvalid c6text).courseDateText = none
    ∧ (parseCertificateFields jsDateInvalid c6text).courseDate = none := by
  exact ⟨by decide, by decide, by decide, by decide⟩

/-- C6 (amended): `courseDateText` is set exactly when `courseDate` is —
both are filled together from the first date pattern whose capture parses;
a matched-but-unparseable capture is discarded and the loop moves on. -/
theorem C6_date_text_iff_date (jsD : Str → Option Str) (t : Str) :
    (parseCertificateFields jsD t).courseDate.isSome
      = (parseCertificateFields jsD t).courseDateText.isSome := by
  unfold parseCertificateFields
  by_cases hc : toSingleLine (crToLf (crlfToLf t)) = [] <;>
    simp [hc, emptyExtracted]

/-- C4 (counterexample): on the §8 scenario text the class-name anchor
("completed all course work in") does not occur — the text says "HAS
PASSED ALL COURSE WORK IN" — so `trainingClassName` is not extracted,
contradicting the claimed `trainingClassName = "Emergency Vehicle
Operations"`. -/
theorem C4_scenario_counterexample :
    (parseCertificateFields jsDateInvalid c4text).trainingClassName = none := by
  decide

/-- C4 (amended): on the §8 scenario text the parser returns
`recipientName = "Jane A. Doe"`, `hoursLogged = 12.0`,
`logNumber = "EVOC-24-0091"` (and `courseIdentifier = "EVOC-24-0091"` via
the log-number fallback), but no `trainingClassName`. -/
theorem C4_scenario_fields :
    parseCertificateFields jsDateInvalid c4text =
      { rawText := c4text,
        recipientName := some (str "Jane A. Doe"),
        trainingClassName := none,
        hoursLogged := some ⟨120, 10⟩,
        courseIdentifier := some (str "EVOC-24-0091"),
        logNumber := some (str "EVOC-24-0091"),
        courseDate := none, courseDateText := none,
        isLikelyMfri := false }
    ∧ ((parseCertificateFields jsDateInvalid c4text).hoursLogged).map JsNum.toQ
        = some 12 := by
  refine ⟨by decide, ?_⟩
  have h : (parseCertificateFields jsDateInvalid c4text).hoursLogged = some ⟨120, 10⟩ := by
    decide
  rw [h]
  simp [JsNum.toQ]
  norm_num

end CertIntel

namespace CertIntel

/-! ### Whitespace characterization for text acquisition -/

theorem mem_dropWhileWs {c : Char} (hc : ¬ isWs c = true) :
    ∀ {l : Str}, c ∈ l → c ∈ l.dropWhile isWs := by
  intro l
  induction l with
  | nil => intro h; cases h
  | cons d t ih =>
    intro h
    by_cases hd : isWs d = true
    · rw [List.dropWhile_cons_of_pos hd]
      rcases List.mem_cons.mp h with rfl | h2
      · exact absurd hd hc
      · exact ih h2
    · rw [List.dropWhile_cons_of_neg hd]
      exact h

theorem mem_jsTrim {c : Char} (hc : ¬ isWs c = true) {l : Str}
    (h : c ∈ l) : c ∈ jsTrim l := by
  unfold jsTrim
  rw [List.mem_reverse]
  apply mem_dropWhileWs hc
  rw [List.mem_reverse]
  exact mem_dropWhileWs hc h

theorem mem_squashWsAux {c : Char} (hc : ¬ isWs c = true) :
    ∀ (b : Bool) {l : Str}, c ∈ l → c ∈ squashWsAux b l := by
  intro b l
  induction l generalizing b with
  | nil => intro h; cases h
  | cons d t ih =>
    intro h
    rcases List.mem_cons.mp h with rfl | h2
    · simp only [squashWsAux, hc, if_false, Bool.false_eq_true]
      exact List.mem_cons_self _ _
    · by_cases hd : isWs d = true
      · simp only [squashWsAux, hd, if_true]
        by_cases hb : b
        · simp only [hb, if_true]
          exact ih _ h2
        · simp only [hb, Bool.false_eq_true, if_false]
          exact List.mem_cons_of_mem _ (ih _ h2)
      · simp only [squashWsAux, hd, if_false, Bool.false_eq_true]
        exact List.mem_cons_of_mem _ (ih _ h2)

theorem squashWsAux_true_of_allWs {l : Str} (h : ∀ c ∈ l, isWs c = true) :
    squashWsAux true l = [] := by
  induction l with
  | nil => rfl
  | cons d t ih =>
    have hd := h d (List.mem_cons_self _ _)
    simp only [squashWsAux, hd, if_true]
    exact ih (fun c hc => h c (List.mem_cons_of_mem _ hc))

/-- `normalizeWhitespace s = []` iff `s` is all-whitespace. -/
theorem normWs_nil_iff (s : Str) :
    normalizeWhitespace s = [] ↔ ∀ c ∈ s, isWs c = true := by
  constructor
  · intro hnil c hc
    by_contra hnw
    have : c ∈ normalizeWhitespace s :=
      mem_jsTrim hnw (mem_squashWsAux hnw false hc)
    rw [hnil] at this
    cases this
  · intro h
    unfold normalizeWhitespace squashWs
    cases s with
    | nil => rfl
    | cons d t =>
      have hd := h d (List.mem_cons_self _ _)
      have ht : ∀ c ∈ t, isWs c = true :=
        fun c hc => h c (List.mem_cons_of_mem _ hc)
      simp only [squashWsAux, hd, if_true, Bool.false_eq_true, if_false]
      rw [squashWsAux_true_of_allWs ht]
      decide

theorem crlfToLf_chars (s : Str) : ∀ c ∈ crlfToLf s, c ∈ s ∨ c = '\n' := by
  induction s using crlfToLf.induct with
  | case1 t ih =>
    intro c hc
    rw [crlfToLf] at hc
    rcases List.mem_cons.mp hc with h | h
    · right; exact h
    · rcases ih c h with h2 | h2
      · left; exact List.mem_cons_of_mem _ (List.mem_cons_of_mem _ h2)
      · right; exact h2
  | case2 c0 t hne ih =>
    intro c hc
    have heq : crlfToLf (c0 :: t) = c0 :: crlfToLf t := by
      rw [crlfToLf]
      exact hne
    rw [heq] at hc
    rcases List.mem_cons.mp hc with rfl | h
    · left; exact List.mem_cons_self _ _
    · rcases ih c h with h2 | h2
      · left; exact List.mem_cons_of_mem _ h2
      · right; exact h2
  | case3 =>
    intro c hc
    cases hc

theorem mem_crlfToLf {c : Char} (hc : ¬ isWs c = true) :
    ∀ {s : Str}, c ∈ s → c ∈ crlfToLf s := by
  intro s
  induction s using crlfToLf.induct with
  | case1 t ih =>
    intro h
    rw [crlfToLf]
    rcases List.mem_cons.mp h with rfl | h2
    · exact absurd (by decide : isWs '\x0d' = true) hc
    · rcases List.mem_cons.mp h2 with rfl | h3
      · exact absurd (by decide : isWs '\n' = true) hc
      · exact List.mem_cons_of_mem _ (ih h3)
  | case2 c0 t hne ih =>
    intro h
    have heq : crlfToLf (c0 :: t) = c0 :: crlfToLf t := by
      rw [crlfToLf]
      exact hne
    rw [heq]
    rcases List.mem_cons.mp h with rfl | h2
    · exact List.mem_cons_self _ _
    · exact List.mem_cons_of_mem _ (ih h2)
  | case3 =>
    intro h
    cases h

theorem allWs_crlf_iff (s : Str) :
    (∀ c ∈ crToLf (crlfToLf s), isWs c = true) ↔ (∀ c ∈ s, isWs c = true) := by
  constructor
  · intro h c hc
    by_contra hnw
    have h1 : c ∈ crlfToLf s := mem_crlfToLf hnw hc
    have h2 : c ∈ crToLf (crlfToLf s) := by
      unfold crToLf
      have : (if c = '\r' then '\n' else c) = c := by
        have : ¬ c = '\r' := fun h => hnw (by rw [h]; decide)
        simp [this]
      rw [← this]
      exact List.mem_map_of_mem _ h1
    exact hnw (h c h2)
  · intro h c hc
    unfold crToLf at hc
    rcases List.mem_map.mp hc with ⟨a, ha, rfl⟩
    rcases crlfToLf_chars s a ha with h2 | h2
    · by_cases hr : a = '\r'
      · simp only [hr, if_true, reduceIte]
        decide
      · simp only [hr, if_false, reduceIte]
        exact h a h2
    · simp only [h2, reduceIte]
      decide

/-- Characters of `joinSep sep l`. -/
theorem joinSep_chars (sep : Str) (l : List Str) :
    ∀ c ∈ joinSep sep l, c ∈ sep ∨ ∃ ch ∈ l, c ∈ ch := by
  induction l with
  | nil => intro c hc; cases hc
  | cons x xs ih =>
    intro c hc
    unfold joinSep at hc
    rcases List.mem_append.mp hc with h | h
    · right; exact ⟨x, List.mem_cons_self _ _, h⟩
    · have hrest : c ∈ joinSep sep xs ∨ c ∈ sep := by
        cases xs with
        | nil => cases h
        | cons y ys =>
          simp only [List.map_cons, List.foldr_cons] at h
          rcases List.mem_append.mp h with h2 | h2
          · rcases List.mem_append.mp h2 with h3 | h3
            · right; exact h3
            · left
              unfold joinSep
              exact List.mem_append.mpr (Or.inl h3)
          · left
            unfold joinSep
            exact List.mem_append.mpr (Or.inr h2)
      rcases hrest with h2 | h2
      · rcases ih c h2 with h3 | ⟨ch, hch, h4⟩
        · left; exact h3
        · right; exact ⟨ch, List.mem_cons_of_mem _ hch, h4⟩
      · left; exact h2

theorem mem_joinSep {sep : Str} {l : List Str} {ch : Str} (hch : ch ∈ l)
    {c : Char} (hc : c ∈ ch) : c ∈ joinSep sep l := by
  induction l with
  | nil => cases hch
  | cons x xs ih =>
    unfold joinSep
    rcases List.mem_cons.mp hch with rfl | h2
    · exact List.mem_append.mpr (Or.inl hc)
    · apply List.mem_append.mpr
      right
      have hr := ih h2
      cases xs with
      | nil => cases h2
      | cons y ys =>
        unfold joinSep at hr
        simp only [List.map_cons, List.foldr_cons]
        rcases List.mem_append.mp hr with h3 | h3
        · exact List.mem_append.mpr (Or.inl (List.mem_append.mpr (Or.inr h3)))
        · exact List.mem_append.mpr (Or.inr h3)

end CertIntel

namespace CertIntel

/-- C1: text acquisition fails with the unreadable-certificate error if
and only if every collected pass output (PDF text layer and/or OCR) is
empty or all-whitespace; when some pass yields non-whitespace text it
returns the newline-joined combination of the pass outputs without
error. -/
theorem C1_unreadable_iff_no_text (mime : Str) (pdf ocr : Option Str) :
    (extractCertificateText mime pdf ocr = Except.error unreadableMsg ↔
        ∀ ch ∈ acqChunks mime pdf ocr, ∀ c ∈ ch, isWs c = true)
    ∧ ∀ t, extractCertificateText mime pdf ocr = Except.ok t →
        t = crToLf (crlfToLf (joinSep (str "\n") (acqChunks mime pdf ocr)))
        ∧ ∃ ch ∈ acqChunks mime pdf ocr, ∃ c ∈ ch, ¬ isWs c = true := by
  have key : normalizeWhitespace
        (crToLf (crlfToLf (joinSep (str "\n") (acqChunks mime pdf ocr)))) = []
      ↔ ∀ ch ∈ acqChunks mime pdf ocr, ∀ c ∈ ch, isWs c = true := by
    rw [normWs_nil_iff, allWs_crlf_iff]
    constructor
    · intro h ch hch c hc
      exact h c (mem_joinSep hch hc)
    · intro h c hc
      rcases joinSep_chars _ _ c hc with h2 | ⟨ch, hch, h3⟩
      · have : c = '\n' := by simpa [str] using h2
        rw [this]; decide
      · exact h ch hch c h3
  have hdef : extractCertificateText mime pdf ocr =
      if normalizeWhitespace
          (crToLf (crlfToLf (joinSep (str "\n") (acqChunks mime pdf ocr)))) = []
      then Except.error unreadableMsg
      else Except.ok (crToLf (crlfToLf (joinSep (str "\n") (acqChunks mime pdf ocr)))) := rfl
  rw [hdef]
  by_cases hws : normalizeWhitespace
      (crToLf (crlfToLf (joinSep (str "\n") (acqChunks mime pdf ocr)))) = []
  · rw [if_pos hws]
    refine ⟨iff_of_true rfl (key.mp hws), fun t ht => by cases ht⟩
  · rw [if_neg hws]
    constructor
    · constructor
      · intro h; cases h
      · intro hall
        exact absurd (key.mpr hall) hws
    · intro t ht
      have ht2 : t = crToLf (crlfToLf (joinSep (str "\n") (acqChunks mime pdf ocr))) := by
        cases ht; rfl
      refine ⟨ht2, ?_⟩
      have hnot : ¬ ∀ ch ∈ acqChunks mime pdf ocr, ∀ c ∈ ch, isWs c = true :=
        fun h => hws (key.mpr h)
      push_neg at hnot
      rcases hnot with ⟨ch, hch, c, hc, hcw⟩
      exact ⟨ch, hch, c, hc, hcw⟩
  
/-- Witness for C1: an image upload whose OCR yields `"hello"` succeeds
with that text. -/
theorem C1_unreadable_iff_no_text_witness :
    str "hello" = crToLf (crlfToLf (joinSep (str "\n")
        (acqChunks (str "image/png") none (some (str "hello")))))
    ∧ ∃ ch ∈ acqChunks (str "image/png") none (some (str "hello")),
        ∃ c ∈ ch, ¬ isWs c = true :=
  (C1_unreadable_iff_no_text (str "image/png") none (some (str "hello"))).2
    (str "hello") (by rfl)

end CertIntel

namespace CertIntel

/-! ### Order and positivity lemmas for `JsNum` -/

theorem JsNum.le_toQ {a b : JsNum} (ha : 0 < a.d) (hb : 0 < b.d) :
    JsNum.le a b = true ↔ a.toQ ≤ b.toQ := by
  unfold JsNum.le JsNum.toQ
  rw [div_le_div_iff₀ (by exact_mod_cast ha) (by exact_mod_cast hb)]
  rw [decide_eq_true_iff]
  constructor
  · intro h; exact_mod_cast h
  · intro h; exact_mod_cast h

theorem JsNum.lt_toQ {a b : JsNum} (ha : 0 < a.d) (hb : 0 < b.d) :
    JsNum.lt a b = true ↔ a.toQ < b.toQ := by
  unfold JsNum.lt JsNum.toQ
  rw [div_lt_div_iff₀ (by exact_mod_cast ha) (by exact_mod_cast hb)]
  rw [decide_eq_true_iff]
  constructor
  · intro h; exact_mod_cast h
  · intro h; exact_mod_cast h

theorem JsNum.toQ_nonneg {a : JsNum} (hn : 0 ≤ a.n) : 0 ≤ a.toQ := by
  unfold JsNum.toQ
  apply div_nonneg
  · exact_mod_cast hn
  · positivity

theorem JsNum.good_ofNat (k : ℕ) : JsNum.Good (OfNat.ofNat k : JsNum) :=
  ⟨Int.ofNat_nonneg k, Nat.one_pos⟩

theorem JsNum.good_add {a b : JsNum} (ha : a.Good) (hb : b.Good) :
    (JsNum.add a b).Good := by
  refine ⟨?_, Nat.mul_pos ha.2 hb.2⟩
  have h1 : (0 : ℤ) ≤ a.n * b.d := mul_nonneg ha.1 (Int.ofNat_nonneg _)
  have h2 : (0 : ℤ) ≤ b.n * a.d := mul_nonneg hb.1 (Int.ofNat_nonneg _)
  exact add_nonneg h1 h2

theorem JsNum.good_if {c : Prop} [Decidable c] {a b : JsNum}
    (ha : a.Good) (hb : b.Good) : (if c then a else b).Good := by
  by_cases h : c <;> simp [h, ha, hb]

theorem JsNum.good_maxJ {a b : JsNum} (ha : a.Good) (hb : b.Good) :
    (JsNum.maxJ a b).Good := by
  unfold JsNum.maxJ
  by_cases h : JsNum.lt a b = true <;> simp [h, ha, hb]

theorem JsNum.good_minJ {a b : JsNum} (ha : a.Good) (hb : b.Good) :
    (JsNum.minJ a b).Good := by
  unfold JsNum.minJ
  by_cases h : JsNum.lt b a = true <;> simp [h, ha, hb]

theorem foldl_maxJ_mem : ∀ (l : List JsNum) (a : JsNum),
    l.foldl JsNum.maxJ a = a ∨ l.foldl JsNum.maxJ a ∈ l := by
  intro l
  induction l with
  | nil => intro a; left; rfl
  | cons h t ih =>
    intro a
    simp only [List.foldl_cons]
    rcases ih (JsNum.maxJ a h) with h2 | h2
    · rw [h2]
      unfold JsNum.maxJ
      by_cases hlt : JsNum.lt a h = true
      · right; rw [if_pos hlt]; exact List.mem_cons_self _ _
      · left; rw [if_neg hlt]
    · right; exact List.mem_cons_of_mem _ h2

theorem good_maxOfScores {l : List JsNum} (hall : ∀ x ∈ l, x.Good) :
    (maxOfScores l).Good := by
  unfold maxOfScores
  cases l with
  | nil => exact JsNum.good_ofNat 0
  | cons h t =>
    show (t.foldl JsNum.maxJ h).Good
    rcases foldl_maxJ_mem t h with h2 | h2
    · rw [h2]; exact hall h (List.mem_cons_self _ _)
    · exact hall _ (List.mem_cons_of_mem _ h2)

theorem JsNum.good_mul {a b : JsNum} (ha : a.Good) (hb : b.Good) :
    (JsNum.mul a b).Good :=
  ⟨mul_nonneg ha.1 hb.1, Nat.mul_pos ha.2 hb.2⟩

theorem JsNum.good_div {a b : JsNum} (ha : a.Good) (hbn : 0 < b.n) :
    (JsNum.div a b).Good := by
  unfold JsNum.div
  rw [if_neg (by omega : ¬ b.n < 0)]
  exact ⟨mul_nonneg ha.1 (Int.ofNat_nonneg _),
    Nat.mul_pos ha.2 (Int.natAbs_pos.mpr (by omega))⟩

theorem variantScores70_good {normalized : Str} {variants : List Str} :
    ∀ x ∈ variantScores70 normalized variants, x.Good := by
  intro x hx
  unfold variantScores70 at hx
  rcases List.mem_map.mp hx with ⟨v, _, rfl⟩
  dsimp only
  split
  · next hT =>
    exact JsNum.good_mul
      (JsNum.good_div ⟨Int.ofNat_nonneg _, Nat.one_pos⟩
        (by simpa using Int.ofNat_pos.mpr (Nat.pos_of_ne_zero hT)))
      (JsNum.good_ofNat 70)
  · exact JsNum.good_ofNat 0

theorem variantScores100_good {normalized : Str} {variants : List Str} :
    ∀ x ∈ variantScores100 normalized variants, x.Good := by
  intro x hx
  unfold variantScores100 at hx
  rcases List.mem_map.mp hx with ⟨v, _, rfl⟩
  dsimp only
  split
  · next hT =>
    exact JsNum.good_mul
      (JsNum.good_div ⟨Int.ofNat_nonneg _, Nat.one_pos⟩
        (by simpa using Int.ofNat_pos.mpr hT))
      (JsNum.good_ofNat 100)
  · exact JsNum.good_ofNat 0

theorem good_partialCredit (search : NameParts) (f l d : Str) :
    (partialCreditScore search f l d).Good := by
  unfold partialCreditScore
  apply JsNum.good_add
  apply JsNum.good_add
  apply JsNum.good_add
  all_goals exact JsNum.good_if (JsNum.good_ofNat _) (JsNum.good_ofNat 0)

/-- `scoreCandidateUser` always yields a nonnegative numerator over a
positive denominator. -/
theorem score_good (q : Str) (u : JsUser) : (scoreCandidateUser q u).Good := by
  unfold scoreCandidateUser
  dsimp only
  split
  · exact JsNum.good_ofNat 100
  · apply JsNum.good_minJ (JsNum.good_ofNat 100)
    split
    · exact JsNum.good_maxJ (good_partialCredit _ _ _ _)
        (good_maxOfScores variantScores70_good)
    · exact good_partialCredit _ _ _ _

end CertIntel

namespace CertIntel

theorem JsNum.toQ_ofNat (k : ℕ) : (OfNat.ofNat k : JsNum).toQ = (k : ℚ) := by
  show ((k : ℤ) : ℚ) / ((1 : ℕ) : ℚ) = (k : ℚ)
  norm_num

theorem minJ100_bounds {s : JsNum} (hs : s.Good) :
    0 ≤ (JsNum.minJ 100 s).toQ ∧ (JsNum.minJ 100 s).toQ ≤ 100 := by
  unfold JsNum.minJ
  split
  · next hlt =>
    refine ⟨JsNum.toQ_nonneg hs.1, ?_⟩
    have h1 : (0 : ℕ) < (100 : JsNum).d := Nat.one_pos
    have := (JsNum.lt_toQ hs.2 h1).mp hlt
    rw [JsNum.toQ_ofNat 100] at this
    exact le_of_lt (by exact_mod_cast this)
  · rw [JsNum.toQ_ofNat 100]
    norm_num

/-- C7 (amended): `scoreCandidateUser` always returns a value in the real
interval [0, 100] (it is not always an integer — see the
counterexample). -/
theorem C7_score_range (q : Str) (u : JsUser) :
    0 ≤ (scoreCandidateUser q u).toQ ∧ (scoreCandidateUser q u).toQ ≤ 100 := by
  unfold scoreCandidateUser
  dsimp only
  split
  · rw [JsNum.toQ_ofNat 100]
    norm_num
  · apply minJ100_bounds
    split
    · exact JsNum.good_maxJ (good_partialCredit _ _ _ _)
        (good_maxOfScores variantScores70_good)
    · exact good_partialCredit _ _ _ _

/-- C7 (counterexample): for the query "john quincy smith x" against the
John Quincy Smith record the token-overlap fallback yields 3/4 · 70 =
52.5, which is not an integer — the score function does not always return
an integer. -/
theorem C7_score_not_integer :
    scoreCandidateUser johnQuery johnQuincy = ⟨210, 4⟩ ∧
      ¬ ∃ z : ℤ, (scoreCandidateUser johnQuery johnQuincy).toQ = (z : ℚ) := by
  have h : scoreCandidateUser johnQuery johnQuincy = ⟨210, 4⟩ := by decide
  refine ⟨h, ?_⟩
  rintro ⟨z, hz⟩
  rw [h] at hz
  have h1 : (210 : ℚ) / 4 = (z : ℚ) := by
    simpa [JsNum.toQ] using hz
  have h2 : (210 : ℚ) = (z : ℚ) * 4 := by
    rw [div_eq_iff (by norm_num : (4 : ℚ) ≠ 0)] at h1
    exact h1
  have h3 : (210 : ℤ) = z * 4 := by exact_mod_cast h2
  omega

end CertIntel

namespace CertIntel

/-! ### Lemmas about `findUserByName` -/

theorem le_foldr_max : ∀ (l : List ℚ) (x : ℚ), x ∈ l → x ≤ l.foldr max 0 := by
  intro l
  induction l with
  | nil => intro x hx; cases hx
  | cons h t ih =>
    intro x hx
    rcases List.mem_cons.mp hx with rfl | hx2
    · exact le_max_left _ _
    · exact (ih x hx2).trans (le_max_right _ _)

theorem score_le_combined (name : Str) (u : JsUser) :
    (scoreCandidateUser name u).toQ ≤ combinedScoreQ name u := by
  unfold combinedScoreQ
  exact le_max_left _ _

theorem exact_le_combined {name : Str} {u : JsUser}
    (h : ((parseNameParts name).first ≠ [] && (parseNameParts name).last ≠ []
          && normalizeForMatch u.firstName = (parseNameParts name).first
          && normalizeForMatch u.lastName = (parseNameParts name).last) = true) :
    (100 : ℚ) ≤ combinedScoreQ name u := by
  unfold combinedScoreQ
  dsimp only
  rw [if_pos h]
  exact le_trans (le_max_left _ _) (le_max_right _ _)

theorem variantHit_le_combined {name : Str} {u : JsUser}
    (h : (getUserNameVariantSet u).contains (normalizeForMatch name) = true) :
    (100 : ℚ) ≤ combinedScoreQ name u := by
  unfold combinedScoreQ
  dsimp only
  rw [if_pos h]
  exact le_trans (le_trans (le_max_left _ _) (le_max_right _ _)) (le_max_right _ _)

theorem ratio_le_combined {name : Str} {u : JsUser} {x : JsNum}
    (hx : x ∈ variantScores100 (normalizeForMatch name) (getUserNameVariantSet u)) :
    x.toQ ≤ combinedScoreQ name u := by
  unfold combinedScoreQ
  dsimp only
  have h1 : x.toQ ≤ ((variantScores100 (normalizeForMatch name)
      (getUserNameVariantSet u)).map JsNum.toQ).foldr max 0 :=
    le_foldr_max _ _ (List.mem_map_of_mem _ hx)
  exact le_trans h1
    (le_trans (le_trans (le_max_right _ _) (le_max_right _ _)) (le_max_right _ _))

theorem ratioFold_inv (name : Str) (v : JsUser) :
    ∀ (l : List JsNum),
      (∀ x ∈ l, x ∈ variantScores100 (normalizeForMatch name) (getUserNameVariantSet v)) →
      ∀ (acc : Option JsUser × JsNum), FindInv name acc →
      FindInv name (l.foldl (fun a sc => if JsNum.lt a.2 sc then (some v, sc) else a) acc) := by
  intro l
  induction l with
  | nil => intro _ acc hacc; exact hacc
  | cons sc t ih =>
    intro hmem acc hacc
    simp only [List.foldl_cons]
    apply ih (fun x hx => hmem x (List.mem_cons_of_mem _ hx))
    by_cases hlt : JsNum.lt acc.2 sc = true
    · rw [if_pos hlt]
      have hsc := hmem sc (List.mem_cons_self _ _)
      refine ⟨fun u hu => ?_, fun h => Option.noConfusion h, variantScores100_good sc hsc⟩
      obtain rfl : v = u := Option.some.inj hu
      exact ratio_le_combined hsc
    · rw [if_neg hlt]
      exact hacc

theorem findUserStep_inv (name : Str) (v : JsUser) (acc : Option JsUser × JsNum)
    (hacc : FindInv name acc) :
    FindInv name (findUserStep name (normalizeForMatch name) (parseNameParts name) acc v) := by
  unfold findUserStep
  dsimp only
  have hacc1 : FindInv name (if JsNum.lt acc.2 (scoreCandidateUser name v) = true
      then ((some v : Option JsUser), scoreCandidateUser name v) else acc) := by
    split
    · refine ⟨fun u hu => ?_, fun hu => Option.noConfusion hu, score_good name v⟩
      obtain rfl : v = u := Option.some.inj hu
      exact score_le_combined name v
    · exact hacc
  split
  · next hcond =>
    refine ⟨fun u hu => ?_, fun hu => Option.noConfusion hu, JsNum.good_ofNat 100⟩
    obtain rfl : v = u := Option.some.inj hu
    rw [JsNum.toQ_ofNat 100]
    exact exact_le_combined hcond
  · split
    · next hcontains =>
      refine ⟨fun u hu => ?_, fun hu => Option.noConfusion hu, JsNum.good_ofNat 100⟩
      obtain rfl : v = u := Option.some.inj hu
      rw [JsNum.toQ_ofNat 100]
      exact variantHit_le_combined hcontains
    · exact ratioFold_inv name v _ (fun x hx => hx) _ hacc1

theorem findUserFold_inv (name : Str) :
    ∀ (users : List JsUser) (acc : Option JsUser × JsNum), FindInv name acc →
      FindInv name (users.foldl
        (findUserStep name (normalizeForMatch name) (parseNameParts name)) acc) := by
  intro users
  induction users with
  | nil => intro acc hacc; exact hacc
  | cons v t ih =>
    intro acc hacc
    simp only [List.foldl_cons]
    exact ih _ (findUserStep_inv name v acc hacc)

end CertIntel

namespace CertIntel

/-! ### Lemmas about `findPossibleUsersByName` -/

theorem mem_insertByScoreDesc {x e : ScoredUser} :
    ∀ {l : List ScoredUser}, x ∈ insertByScoreDesc e l ↔ x = e ∨ x ∈ l := by
  intro l
  induction l with
  | nil => simp [insertByScoreDesc]
  | cons h t ih =>
    unfold insertByScoreDesc
    split
    · constructor
      · intro hx
        rcases List.mem_cons.mp hx with rfl | hx2
        · exact Or.inl rfl
        · exact Or.inr hx2
      · intro hx
        rcases hx with rfl | hx2
        · exact List.mem_cons_self _ _
        · exact List.mem_cons_of_mem _ hx2
    · constructor
      · intro hx
        rcases List.mem_cons.mp hx with rfl | hx2
        · exact Or.inr (List.mem_cons_self _ _)
        · rcases ih.mp hx2 with h3 | h3
          · exact Or.inl h3
          · exact Or.inr (List.mem_cons_of_mem _ h3)
      · intro hx
        rcases hx with rfl | hx2
        · exact List.mem_cons_of_mem _ (ih.mpr (Or.inl rfl))
        · rcases List.mem_cons.mp hx2 with rfl | h3
          · exact List.mem_cons_self _ _
          · exact List.mem_cons_of_mem _ (ih.mpr (Or.inr h3))

theorem mem_sortFold {x : ScoredUser} :
    ∀ (l acc : List ScoredUser),
      x ∈ l.foldl (fun acc e => insertByScoreDesc e acc) acc ↔ x ∈ acc ∨ x ∈ l := by
  intro l
  induction l with
  | nil => simp
  | cons e t ih =>
    intro acc
    simp only [List.foldl_cons]
    rw [ih]
    rw [mem_insertByScoreDesc]
    constructor
    · rintro ((rfl | h) | h)
      · exact Or.inr (List.mem_cons_self _ _)
      · exact Or.inl h
      · exact Or.inr (List.mem_cons_of_mem _ h)
    · rintro (h | h)
      · exact Or.inl (Or.inr h)
      · rcases List.mem_cons.mp h with rfl | h2
        · exact Or.inl (Or.inl rfl)
        · exact Or.inr h2

theorem mem_sortByScoreDesc {x : ScoredUser} {l : List ScoredUser} :
    x ∈ sortByScoreDesc l ↔ x ∈ l := by
  unfold sortByScoreDesc
  rw [mem_sortFold]
  simp

theorem lt_asymm_false {a b : JsNum} (h : JsNum.lt a b = true) :
    JsNum.lt b a = false := by
  unfold JsNum.lt at h ⊢
  rw [decide_eq_true_iff] at h
  rw [decide_eq_false_iff_not]
  omega

theorem insert_head_cases (e : ScoredUser) (l : List ScoredUser) :
    (insertByScoreDesc e l).head? = some e ∨ (insertByScoreDesc e l).head? = l.head? := by
  cases l with
  | nil => left; rfl
  | cons h t =>
    unfold insertByScoreDesc
    split
    · left; rfl
    · right; rfl

theorem chain_insertByScoreDesc {e : ScoredUser} :
    ∀ {l : List ScoredUser}, List.Chain' ScoreGe l →
      List.Chain' ScoreGe (insertByScoreDesc e l) := by
  intro l
  induction l with
  | nil => intro _; simp [insertByScoreDesc]
  | cons h t ih =>
    intro hch
    rw [List.chain'_cons'] at hch
    unfold insertByScoreDesc
    split
    · next hlt =>
      rw [List.chain'_cons']
      refine ⟨?_, List.chain'_cons'.mpr hch⟩
      intro y hy
      simp only [List.head?_cons, Option.mem_def, Option.some.injEq] at hy
      rw [← hy]
      exact lt_asymm_false hlt
    · next hge =>
      rw [List.chain'_cons']
      refine ⟨?_, ih hch.2⟩
      intro y hy
      rcases insert_head_cases e t with hcase | hcase
      · rw [hcase] at hy
        simp only [Option.mem_def, Option.some.injEq] at hy
        rw [← hy]
        unfold ScoreGe
        simpa using hge
      · rw [hcase] at hy
        exact hch.1 y hy

theorem chain_sortFold :
    ∀ (l acc : List ScoredUser), List.Chain' ScoreGe acc →
      List.Chain' ScoreGe (l.foldl (fun acc e => insertByScoreDesc e acc) acc) := by
  intro l
  induction l with
  | nil => intro acc h; exact h
  | cons e t ih =>
    intro acc h
    simp only [List.foldl_cons]
    exact ih _ (chain_insertByScoreDesc h)

theorem chain_toQ_of_chainScoreGe :
    ∀ (l : List ScoredUser), (∀ x ∈ l, x.score.Good) →
      List.Chain' ScoreGe l →
      List.Chain' (fun a b => b.score.toQ ≤ a.score.toQ) l := by
  intro l
  induction l with
  | nil => intro _ _; simp
  | cons h t ih =>
    intro hall hch
    rw [List.chain'_cons'] at hch ⊢
    refine ⟨?_, ih (fun x hx => hall x (List.mem_cons_of_mem _ hx)) hch.2⟩
    intro y hy
    have hR := hch.1 y hy
    have hy_mem : y ∈ t := List.mem_of_mem_head? hy
    have hgy := hall y (List.mem_cons_of_mem _ hy_mem)
    have hgh := hall h (List.mem_cons_self _ _)
    have hnot : ¬ (JsNum.lt h.score y.score = true) := by
      unfold ScoreGe at hR
      simp [hR]
    rw [JsNum.lt_toQ hgh.2 hgy.2] at hnot
    exact le_of_not_lt hnot

end CertIntel

namespace CertIntel

/-- C3 (counterexample): `findUserByName "john quincy smith x"` over the
pool `[John Quincy Smith]` returns the record although its
`scoreCandidateUser` (§4.4) score is 52.5 < 70 — the extra per-variant
token-overlap loop scaled by 100 (3/4·100 = 75) pushes it over the
auto-select threshold. -/
theorem C3_returns_below_70 :
    findUserByName johnQuery [johnQuincy] = some johnQuincy
    ∧ scoreCandidateUser johnQuery johnQuincy = ⟨210, 4⟩
    ∧ (scoreCandidateUser johnQuery johnQuincy).toQ < 70 := by
  have h : scoreCandidateUser johnQuery johnQuincy = ⟨210, 4⟩ := by decide
  refine ⟨by decide, h, ?_⟩
  rw [h]
  show ((210 : ℤ) : ℚ) / ((4 : ℕ) : ℚ) < 70
  norm_num

/-- C3 (amended): `findUserByName` never returns a candidate whose
combined internal score (`combinedScoreQ`: the §4.4 score, 100 for exact
first+last or variant-set hits, and token-overlap × 100) is below 70;
`findPossibleUsersByName` returns only candidates whose §4.4
`scoreCandidateUser` score is at least 60, sorted non-increasing by that
score and truncated to at most 6 entries. -/
theorem C3_match_thresholds (name : Str) (users pool : List JsUser) :
    (∀ u, findUserByName name users = some u → 70 ≤ combinedScoreQ name u)
    ∧ (∀ e ∈ findPossibleUsersByName name pool,
        e.score = scoreCandidateUser name e.user ∧ 60 ≤ e.score.toQ)
    ∧ List.Chain' (fun a b => b.score.toQ ≤ a.score.toQ)
        (findPossibleUsersByName name pool)
    ∧ (findPossibleUsersByName name pool).length ≤ 6 := by
  refine ⟨?_, ?_, ?_, ?_⟩
  · intro u hu
    unfold findUserByName at hu
    by_cases h1 : name = []
    · rw [if_pos h1] at hu; cases hu
    · rw [if_neg h1] at hu
      by_cases h2 : users = []
      · rw [if_pos h2] at hu; cases hu
      · rw [if_neg h2] at hu
        dsimp only at hu
        have hinv := findUserFold_inv name users (none, 0)
          ⟨fun u h => Option.noConfusion h, fun _ => rfl, JsNum.good_ofNat 0⟩
        split at hu
        · next hle =>
          have hb := hinv.1 u hu
          have hgood := hinv.2.2
          have h70 : (70 : ℚ) ≤ (users.foldl
              (findUserStep name (normalizeForMatch name) (parseNameParts name))
              (none, 0)).2.toQ := by
            have := (JsNum.le_toQ (show 0 < (70 : JsNum).d from Nat.one_pos)
              hgood.2).mp hle
            rwa [JsNum.toQ_ofNat 70] at this
          exact le_trans h70 hb
        · cases hu
  · intro e he
    unfold findPossibleUsersByName at he
    dsimp only at he
    by_cases h1 : (parseNameParts name).normalized = []
    · rw [if_pos h1] at he; cases he
    · rw [if_neg h1] at he
      have he2 : e ∈ sortByScoreDesc
          ((pool.map fun u => ⟨u, scoreCandidateUser name u⟩).filter
            (fun e => JsNum.le 60 e.score)) := List.mem_of_mem_take he
      rw [mem_sortByScoreDesc] at he2
      have he3 := List.mem_filter.mp he2
      rcases List.mem_map.mp he3.1 with ⟨u, _, rfl⟩
      refine ⟨rfl, ?_⟩
      have hle := he3.2
      have := (JsNum.le_toQ (show 0 < (60 : JsNum).d from Nat.one_pos)
        (score_good name u).2).mp hle
      rwa [JsNum.toQ_ofNat 60] at this
  · unfold findPossibleUsersByName
    dsimp only
    by_cases h1 : (parseNameParts name).normalized = []
    · rw [if_pos h1]; simp
    · rw [if_neg h1]
      apply List.Chain'.take
      apply chain_toQ_of_chainScoreGe
      · intro x hx
        rw [mem_sortByScoreDesc] at hx
        rcases List.mem_map.mp (List.mem_filter.mp hx).1 with ⟨u, _, rfl⟩
        exact score_good name u
      · exact chain_sortFold _ [] List.chain'_nil
  · unfold findPossibleUsersByName
    dsimp only
    by_cases h1 : (parseNameParts name).normalized = []
    · rw [if_pos h1]; simp
    · rw [if_neg h1]
      exact List.length_take_le _ _

end CertIntel

namespace CertIntel

/-- Witness for C3 (amended) at concrete lookups: the returned best match
has combined score ≥ 70, and a returned possible match carries its §4.4
score ≥ 60. -/
theorem C3_match_thresholds_witness :
    (70 : ℚ) ≤ combinedScoreQ johnQuery johnQuincy
    ∧ ((⟨johnQuincy, ⟨100, 1⟩⟩ : ScoredUser).score
          = scoreCandidateUser (str "john quincy smith")
              (⟨johnQuincy, ⟨100, 1⟩⟩ : ScoredUser).user
        ∧ (60 : ℚ) ≤ (⟨johnQuincy, ⟨100, 1⟩⟩ : ScoredUser).score.toQ) :=
  ⟨(C3_match_thresholds johnQuery [johnQuincy] [johnQuincy]).1 johnQuincy (by decide),
   (C3_match_thresholds (str "john quincy smith") [johnQuincy] [johnQuincy]).2.1
      ⟨johnQuincy, ⟨100, 1⟩⟩ (by decide)⟩

end CertIntel

namespace CertIntel

/-! ## Engine lemmas: characters consumed or captured by a match -/

/-- Elements of `l.take n` occur at an index below `n`. -/
theorem mem_take_get? {α : Type} : ∀ (n : Nat) (l : List α) (c : α),
    c ∈ l.take n → ∃ m, m < n ∧ l.get? m = some c
  | 0, _, _, h => absurd h (by simp)
  | _ + 1, [], _, h => absurd h (by simp)
  | n + 1, x :: t, c, h => by
    rw [List.take_succ_cons] at h
    rcases List.mem_cons.mp h with rfl | h2
    · exact ⟨0, Nat.succ_pos n, rfl⟩
    · obtain ⟨m, hm, hg⟩ := mem_take_get? n t c h2
      exact ⟨m + 1, Nat.succ_lt_succ hm, hg⟩

/-- A character of `slice s a b` sits at some position `j ∈ [a, b)` of `s`. -/
theorem mem_slice_get? {s : Str} {a b : Nat} {c : Char} (h : c ∈ slice s a b) :
    ∃ j, a ≤ j ∧ j < b ∧ s.get? j = some c := by
  obtain ⟨m, hm, hg⟩ := mem_take_get? (b - a) (s.drop a) c h
  rw [List.get?_drop] at hg
  exact ⟨a + m, Nat.le_add_right a m, by omega, hg⟩

/-- Characters inside the head run of a class satisfy the class. -/
theorem runLen_get? {p : Char → Bool} : ∀ (l : Str) (m : Nat), m < runLen p l →
    ∀ c, l.get? m = some c → p c = true
  | [], m, h => by simp [runLen] at h
  | x :: t, m, h => by
    intro c hg
    simp only [runLen] at h
    by_cases hp : p x
    · rw [if_pos hp] at h
      cases m with
      | zero =>
        cases hg
        exact hp
      | succ m' => exact runLen_get? t m' (by omega) c hg
    · rw [if_neg hp] at h
      omega

/-- Every admissible repetition count is at most the run length. -/
theorem repCounts_le_run {lo : Nat} {hi : Option Nat} {lz : Bool} {run k : Nat}
    (h : k ∈ repCounts lo hi lz run) : k ≤ run := by
  unfold repCounts at h
  dsimp only at h
  split at h
  · cases h
  · have hk : k ∈ (List.range (min (hi.getD run) run - lo + 1)).map (lo + ·) := by
      split at h
      · exact h
      · exact List.mem_reverse.mp h
    obtain ⟨t, ht, rfl⟩ := List.mem_map.mp hk
    have := List.mem_range.mp ht
    omega

/-- Characters consumed by a match of a class-bounded regex satisfy the
bound: every position between the start and end of any outcome holds a
character of `P`. -/
theorem reMatch_consumed {P : Char → Bool} (r : RE) (hcb : ClsBound r P) :
    ∀ (s : Str) (i e : Nat) (cap : Option (Nat × Nat)),
      (e, cap) ∈ reMatch r s i → ∀ j, i ≤ j → j < e →
      ∀ c, s.get? j = some c → P c = true := by
  induction r with
  | eps =>
    intro s i e cap hm j h1 h2 c _
    simp only [reMatch, List.mem_singleton, Prod.mk.injEq] at hm
    omega
  | cls p =>
    intro s i e cap hm j h1 h2 c hg
    simp only [reMatch] at hm
    split at hm
    · rename_i c0 heq
      split at hm
      · rename_i hp
        simp only [List.mem_singleton, Prod.mk.injEq] at hm
        obtain ⟨rfl, -⟩ := hm
        have hj : j = i := by omega
        subst hj
        unfold charAt at heq
        have : c0 = c := Option.some.inj (heq.symm.trans hg)
        exact this ▸ hcb c0 hp
      · cases hm
    · cases hm
  | seq a b iha ihb =>
    intro s i e cap hm j h1 h2 c hg
    simp only [reMatch, List.mem_flatMap] at hm
    obtain ⟨⟨m, ca⟩, hma, hm2⟩ := hm
    dsimp only at hm2
    rw [List.mem_map] at hm2
    obtain ⟨⟨e2, cb⟩, hmb, heq⟩ := hm2
    dsimp only at heq
    injection heq with he hc
    subst he
    by_cases hjm : j < m
    · exact iha hcb.1 s i m ca hma j h1 hjm c hg
    · exact ihb hcb.2 s m e2 cb hmb j (by omega) h2 c hg
  | alt a b iha ihb =>
    intro s i e cap hm j h1 h2 c hg
    simp only [reMatch, List.mem_append] at hm
    rcases hm with hm | hm
    · exact iha hcb.1 s i e cap hm j h1 h2 c hg
    · exact ihb hcb.2 s i e cap hm j h1 h2 c hg
  | rep p lo hi lz =>
    intro s i e cap hm j h1 h2 c hg
    simp only [reMatch, List.mem_map] at hm
    obtain ⟨k, hk, heq⟩ := hm
    injection heq with he hc
    subst he
    have hrun : k ≤ runLen p (s.drop i) := repCounts_le_run hk
    have hgd : (s.drop i).get? (j - i) = some c := by
      rw [List.get?_drop]
      have : i + (j - i) = j := by omega
      rw [this]
      exact hg
    exact hcb c (runLen_get? (s.drop i) (j - i) (by omega) c hgd)
  | grp r ihr =>
    intro s i e cap hm j h1 h2 c hg
    simp only [reMatch, List.mem_map] at hm
    obtain ⟨⟨e2, c2⟩, hmr, heq⟩ := hm
    dsimp only at heq
    injection heq with he hc
    subst he
    exact ihr hcb s i e2 c2 hmr j h1 h2 c hg
  | wb =>
    intro s i e cap hm j h1 h2 c _
    simp only [reMatch] at hm
    split at hm
    · simp only [List.mem_singleton, Prod.mk.injEq] at hm
      omega
    · cases hm
  | bos =>
    intro s i e cap hm j h1 h2 c _
    simp only [reMatch] at hm
    split at hm
    · simp only [List.mem_singleton, Prod.mk.injEq] at hm
      omega
    · cases hm
  | eos =>
    intro s i e cap hm j h1 h2 c _
    simp only [reMatch] at hm
    split at hm
    · simp only [List.mem_singleton, Prod.mk.injEq] at hm
      omega
    · cases hm

/-- Characters inside the capture span of a group-bounded regex satisfy
the bound. -/
theorem reMatch_capture {P : Char → Bool} (r : RE) (hgb : GrpBound r P) :
    ∀ (s : Str) (i e a b : Nat) (cap : Option (Nat × Nat)),
      (e, cap) ∈ reMatch r s i → cap = some (a, b) →
      ∀ j, a ≤ j → j < b → ∀ c, s.get? j = some c → P c = true := by
  induction r with
  | eps =>
    intro s i e a b cap hm hcap
    simp only [reMatch, List.mem_singleton, Prod.mk.injEq] at hm
    rw [hm.2] at hcap
    cases hcap
  | cls p =>
    intro s i e a b cap hm hcap
    simp only [reMatch] at hm
    split at hm
    · split at hm
      · simp only [List.mem_singleton, Prod.mk.injEq] at hm
        rw [hm.2] at hcap
        cases hcap
      · cases hm
    · cases hm
  | seq x y ihx ihy =>
    intro s i e a b cap hm hcap
    simp only [reMatch, List.mem_flatMap] at hm
    obtain ⟨⟨m, ca⟩, hma, hm2⟩ := hm
    dsimp only at hm2
    rw [List.mem_map] at hm2
    obtain ⟨⟨e2, cb⟩, hmb, heq⟩ := hm2
    dsimp only at heq
    injection heq with he hc
    subst he
    cases ca with
    | some v =>
      have hv : v = (a, b) := by
        rw [← hc] at hcap
        exact Option.some.inj hcap
      subst hv
      exact ihx hgb.1 s i m a b (some (a, b)) hma rfl
    | none =>
      have hcb2 : cb = some (a, b) := by
        rw [← hc] at hcap
        exact hcap
      subst hcb2
      exact ihy hgb.2 s m e2 a b (some (a, b)) hmb rfl
  | alt x y ihx ihy =>
    intro s i e a b cap hm hcap
    simp only [reMatch, List.mem_append] at hm
    rcases hm with hm | hm
    · exact ihx hgb.1 s i e a b cap hm hcap
    · exact ihy hgb.2 s i e a b cap hm hcap
  | rep p lo hi lz =>
    intro s i e a b cap hm hcap
    simp only [reMatch, List.mem_map] at hm
    obtain ⟨k, hk, heq⟩ := hm
    injection heq with he hc
    rw [← hc] at hcap
    cases hcap
  | grp r ihr =>
    intro s i e a b cap hm hcap
    simp only [reMatch, List.mem_map] at hm
    obtain ⟨⟨e2, c2⟩, hmr, heq⟩ := hm
    dsimp only at heq
    injection heq with he hc
    subst he
    rw [← hc] at hcap
    injection hcap with hab
    injection hab with ha hb
    subst ha
    subst hb
    exact reMatch_consumed r hgb s i e2 c2 hmr
  | wb =>
    intro s i e a b cap hm hcap
    simp only [reMatch] at hm
    split at hm
    · simp only [List.mem_singleton, Prod.mk.injEq] at hm
      rw [hm.2] at hcap
      cases hcap
    · cases hm
  | bos =>
    intro s i e a b cap hm hcap
    simp only [reMatch] at hm
    split at hm
    · simp only [List.mem_singleton, Prod.mk.injEq] at hm
      rw [hm.2] at hcap
      cases hcap
    · cases hm
  | eos =>
    intro s i e a b cap hm hcap
    simp only [reMatch] at hm
    split at hm
    · simp only [List.mem_singleton, Prod.mk.injEq] at hm
      rw [hm.2] at hcap
      cases hcap
    · cases hm

/-- A successful `match[1]` capture of a group-bounded pattern consists of
characters of the bound. -/
theorem jsMatchCap_chars {r : RE} {P : Char → Bool} {s g : Str}
    (hb : GrpBound r P) (h : jsMatchCap r s = some g) :
    ∀ c ∈ g, P c = true := by
  intro c hcg
  unfold jsMatchCap at h
  split at h
  · rename_i w g' heq
    cases h
    unfold jsMatch at heq
    rw [Option.map_eq_some'] at heq
    obtain ⟨⟨i, e, cap⟩, hs, hf⟩ := heq
    dsimp only at hf
    injection hf with hf1 hf2
    obtain ⟨⟨a, b⟩, hc1, hc2⟩ := Option.map_eq_some'.mp hf2
    subst hc1
    dsimp only at hc2
    rw [← hc2] at hcg
    obtain ⟨i0, hi0, hfind⟩ := List.exists_of_findSome?_eq_some hs
    revert hfind
    split
    · intro hfind
      cases hfind
    · rename_i e1 cap1 tail hhd
      intro hfind
      have h3 : (i0, e1, cap1) = (i, e, (some (a, b) : Option (Nat × Nat))) :=
        Option.some.inj hfind
      have hcap1 : cap1 = some (a, b) := congrArg (fun x => x.2.2) h3
      have hmem : (e1, (some (a, b) : Option (Nat × Nat))) ∈ reMatch r s i0 := by
        rw [hhd, ← hcap1]
        exact List.mem_cons_self _ _
      obtain ⟨j, haj, hjb, hgj⟩ := mem_slice_get? hcg
      exact reMatch_capture r hb s i0 e1 a b (some (a, b)) hmem rfl j haj hjb c hgj
  · cases h

/-- A regex without capture groups is group-bounded by anything. -/
theorem grpBound_of_not_hasGrp : ∀ (r : RE) (P : Char → Bool),
    hasGrp r = false → GrpBound r P := by
  intro r
  induction r with
  | seq a b iha ihb =>
    intro P h
    rw [hasGrp, Bool.or_eq_false_iff] at h
    exact ⟨iha P h.1, ihb P h.2⟩
  | alt a b iha ihb =>
    intro P h
    rw [hasGrp, Bool.or_eq_false_iff] at h
    exact ⟨iha P h.1, ihb P h.2⟩
  | grp r _ =>
    intro P h
    cases h
  | eps => intro P _; trivial
  | cls p => intro P _; trivial
  | rep p lo hi lz => intro P _; trivial
  | wb => intro P _; trivial
  | bos => intro P _; trivial
  | eos => intro P _; trivial

/-- `GrpBound` distributes over pattern concatenation. -/
theorem grpBound_reCat {P : Char → Bool} :
    ∀ (l : List RE), (∀ r ∈ l, GrpBound r P) → GrpBound (reCat l) P
  | [], _ => trivial
  | x :: t, h =>
    ⟨h x (List.mem_cons_self x t),
     grpBound_reCat t fun r hr => h r (List.mem_cons_of_mem x hr)⟩

/-- The body of the hours capture group consumes digits and dots only. -/
theorem clsBound_hoursDigits : ClsBound (RE.seq digPlus fracOpt) digitDot := by
  refine ⟨?_, ⟨?_, ?_⟩, trivial⟩
  · intro c h
    simp [digitDot, h]
  · intro c h
    have : c = '.' := of_decide_eq_true h
    subst this
    decide
  · intro c h
    simp [digitDot, h]

theorem grpBound_hoursLabeled : GrpBound hoursLabeledRe digitDot := by
  refine grpBound_reCat _ ?_
  intro r hr
  simp only [List.mem_cons, List.not_mem_nil, or_false] at hr
  rcases hr with rfl | rfl | rfl | rfl | rfl | rfl | rfl | rfl | rfl <;>
    first
    | exact grpBound_of_not_hasGrp _ _ rfl
    | exact clsBound_hoursDigits

theorem grpBound_hoursBare : GrpBound hoursBareRe digitDot := by
  refine grpBound_reCat _ ?_
  intro r hr
  simp only [List.mem_cons, List.not_mem_nil, or_false] at hr
  rcases hr with rfl | rfl | rfl | rfl | rfl <;>
    first
    | exact grpBound_of_not_hasGrp _ _ rfl
    | exact clsBound_hoursDigits

theorem grpBound_hoursCompleted : GrpBound hoursCompletedRe digitDot := by
  refine grpBound_reCat _ ?_
  intro r hr
  simp only [List.mem_cons, List.not_mem_nil, or_false] at hr
  rcases hr with rfl | rfl | rfl | rfl | rfl | rfl | rfl <;>
    first
    | exact grpBound_of_not_hasGrp _ _ rfl
    | exact clsBound_hoursDigits

/-- `parseFloat` on the unsigned form yields a nonnegative fraction with a
positive denominator. -/
theorem parseUnsignedF_good {r : Str} {v : JsNum}
    (h : parseUnsignedF r = some v) : 0 ≤ v.n ∧ 0 < v.d := by
  unfold parseUnsignedF at h
  dsimp only at h
  split at h
  · cases h
  · cases h
    refine ⟨?_, ?_⟩
    · positivity
    · positivity

/-- On a digit-and-dot string, `parseFloat` can only produce a nonnegative
finite value: a leading minus sign is impossible. -/
theorem parseFloatF_nonneg {s : Str} {v : JsNum}
    (hd : ∀ c ∈ s, digitDot c = true) (h : parseFloatF s = some v) :
    0 ≤ v.n ∧ 0 < v.d := by
  unfold parseFloatF at h
  dsimp only at h
  split at h
  · rename_i r heq
    have hm : '-' ∈ s :=
      (List.dropWhile_sublist isWs).mem (heq ▸ List.mem_cons_self '-' r)
    exact absurd (hd '-' hm) (by decide)
  · rename_i r heq
    have hm : '+' ∈ s :=
      (List.dropWhile_sublist isWs).mem (heq ▸ List.mem_cons_self '+' r)
    exact absurd (hd '+' hm) (by decide)
  · exact parseUnsignedF_good h

end CertIntel

namespace CertIntel

/-- C5: for every input text, whenever `parseCertificateFields` populates
`hoursLogged`, the stored value is a well-formed finite number that is
greater than or equal to 0 (nonnegative numerator over a positive power of
ten): the hours capture group `(\d+(?:\.\d+)?)` can only capture digits
and dots, and `parseFloat` turns such text into a nonnegative fraction, so
negative or non-numeric matched text never populates the field. -/
theorem C5_hours_logged_nonneg (jsD : Str → Option Str) (text : Str)
    (h : JsNum) (hh : (parseCertificateFields jsD text).hoursLogged = some h) :
    0 ≤ h.toQ ∧ 0 < h.d := by
  unfold parseCertificateFields at hh
  dsimp only at hh
  split at hh
  · rw [show (emptyExtracted text).hoursLogged = none from rfl] at hh
    cases hh
  · dsimp only at hh
    obtain ⟨p, hp, hf⟩ := List.exists_of_findSome?_eq_some hh
    have hgb : GrpBound p digitDot := by
      simp only [hoursPatterns, List.mem_cons, List.not_mem_nil, or_false] at hp
      rcases hp with rfl | rfl | rfl
      · exact grpBound_hoursLabeled
      · exact grpBound_hoursBare
      · exact grpBound_hoursCompleted
    revert hf
    split
    · rename_i g heq
      intro hf
      split at hf
      · have hd : ∀ c ∈ g, digitDot c = true := jsMatchCap_chars hgb heq
        obtain ⟨hn, hdpos⟩ := parseFloatF_nonneg hd hf
        exact ⟨JsNum.toQ_nonneg hn, hdpos⟩
      · cases hf
    · intro hf
      cases hf

/-- Witness for C5 at the text `"Total hours: 2"`, whose hours field is
populated with the value 2. -/
theorem C5_hours_logged_nonneg_witness :
    (parseCertificateFields (fun _ => none) (str "Total hours: 2")).hoursLogged
        = some ⟨2, 1⟩
    ∧ ((0 : ℚ) ≤ (⟨2, 1⟩ : JsNum).toQ ∧ 0 < (⟨2, 1⟩ : JsNum).d) :=
  ⟨by decide,
   C5_hours_logged_nonneg (fun _ => none) (str "Total hours: 2") ⟨2, 1⟩ (by decide)⟩

end CertIntel

namespace CertIntel

/-! ## Frame lemmas for `applyAutofillResult` -/

/-- The class block never touches the selected-person display or record. -/
theorem classBlock_keeps_selected (e : ClientExtracted) (ctx : AutofillContext)
    (st : AutofillState) :
    (classBlock e ctx st).1.selectedUserNameText = st.selectedUserNameText
    ∧ (classBlock e ctx st).1.selectedUserDetails = st.selectedUserDetails := by
  unfold classBlock
  dsimp only
  split
  · split
    · split <;> exact ⟨rfl, rfl⟩
    · exact ⟨rfl, rfl⟩
  · split <;> exact ⟨rfl, rfl⟩

/-- The date block never touches the selected-person display or record. -/
theorem dateBlock_keeps_selected (jsValidDate : Str → Bool)
    (e : ClientExtracted) (ctx : AutofillContext) (st : AutofillState)
    (lvl : Level) :
    (dateBlock jsValidDate e ctx st lvl).1.selectedUserNameText
        = st.selectedUserNameText
    ∧ (dateBlock jsValidDate e ctx st lvl).1.selectedUserDetails
        = st.selectedUserDetails := by
  unfold dateBlock
  dsimp only
  split
  · split <;> exact ⟨rfl, rfl⟩
  · split <;> exact ⟨rfl, rfl⟩

/-- The hours block never touches the selected-person display or record. -/
theorem hoursBlock_keeps_selected (e : ClientExtracted) (ctx : AutofillContext)
    (st : AutofillState) :
    (hoursBlock e ctx st).1.selectedUserNameText = st.selectedUserNameText
    ∧ (hoursBlock e ctx st).1.selectedUserDetails = st.selectedUserDetails := by
  unfold hoursBlock
  dsimp only
  split
  · split <;> exact ⟨rfl, rfl⟩
  · exact ⟨rfl, rfl⟩

/-- The course-number block never touches the selected-person display or
record. -/
theorem courseNumBlock_keeps_selected (e : ClientExtracted)
    (ctx : AutofillContext) (st : AutofillState) (lvl : Level) :
    (courseNumBlock e ctx st lvl).1.selectedUserNameText
        = st.selectedUserNameText
    ∧ (courseNumBlock e ctx st lvl).1.selectedUserDetails
        = st.selectedUserDetails := by
  unfold courseNumBlock
  dsimp only
  split
  · exact ⟨rfl, rfl⟩
  · split <;> exact ⟨rfl, rfl⟩

/-- The recipient candidate list only reads the selected-person fields. -/
theorem recipientCandidateNames_congr {st st' : AutofillState}
    (h1 : st'.selectedUserNameText = st.selectedUserNameText)
    (h2 : st'.selectedUserDetails = st.selectedUserDetails) :
    recipientCandidateNames st' = recipientCandidateNames st := by
  unfold recipientCandidateNames
  rw [h1, h2]

end CertIntel

namespace CertIntel

/-- C8 counterexample: the extraction carries the non-empty recipient name
`"1234"`, which matches neither the selected Jane Doe's normalized display
name nor any of her name variants, yet the outcome carries no conflict
message and its severity is `success`, not `warning`: the conflict branch
additionally requires the NORMALIZED extracted name to be non-empty, and
`"1234"` normalizes to the empty string. -/
theorem C8_scenario_counterexample :
    c8extracted.recipientName = some (str "1234")
    ∧ str "1234" ≠ []
    ∧ (recipientCandidateNames c8state).contains
        (normalizeForMatch (str "1234")) = false
    ∧ applyAutofillResult (fun _ => false) (some c8extracted) c8ctx c8state
        = { state := { c8state with hoursValue := some ⟨2, 1⟩ },
            status := some ([Msg.hoursSet ⟨2, 1⟩], Level.success) } := by
  refine ⟨rfl, by decide, by decide, by decide⟩

/-- C8 (amended): when the status element is present and the extracted
recipient name normalizes to a non-empty string that is not among the
selected person's candidate names (normalized display name plus variant
set), the outcome's message list contains the conflict message, the overall
severity is `warning`, the selected person is unchanged, and the final form
state is identical to that of a run without any extracted recipient — the
recipient comparison writes no form field. -/
theorem C8_recipient_conflict (jsValidDate : Str → Bool)
    (e : ClientExtracted) (ctx : AutofillContext) (st : AutofillState)
    (r : Str)
    (hctx : ctx.statusElement = true)
    (hr : e.recipientName = some r)
    (hnorm : normalizeForMatch r ≠ [])
    (hmiss : (recipientCandidateNames st).contains (normalizeForMatch r)
        = false) :
    ∃ msgs,
      (applyAutofillResult jsValidDate (some e) ctx st).status
          = some (msgs, Level.warning)
      ∧ Msg.recipientMismatch r ∈ msgs
      ∧ (applyAutofillResult jsValidDate (some e) ctx st).state.selectedUserNameText
          = st.selectedUserNameText
      ∧ (applyAutofillResult jsValidDate (some e) ctx st).state.selectedUserDetails
          = st.selectedUserDetails
      ∧ (applyAutofillResult jsValidDate (some e) ctx st).state
          = (applyAutofillResult jsValidDate
              (some { e with recipientName := none }) ctx st).state := by
  rcases hcb : classBlock e ctx st with ⟨st1, msgs1, lvl1⟩
  rcases hdb : dateBlock jsValidDate e ctx st1 lvl1 with ⟨st2, msgs2, lvl2⟩
  rcases hhb : hoursBlock e ctx st2 with ⟨st3, msgs3⟩
  rcases hnb : courseNumBlock e ctx st3 lvl2 with ⟨st4, msgs4, lvl4, handled⟩
  have h1 := classBlock_keeps_selected e ctx st
  have h2 := dateBlock_keeps_selected jsValidDate e ctx st1 lvl1
  have h3 := hoursBlock_keeps_selected e ctx st2
  have h4 := courseNumBlock_keeps_selected e ctx st3 lvl2
  rw [hcb] at h1
  rw [hdb] at h2
  rw [hhb] at h3
  rw [hnb] at h4
  have hf1 : st4.selectedUserNameText = st.selectedUserNameText := by
    rw [h4.1, h3.1, h2.1, h1.1]
  have hf2 : st4.selectedUserDetails = st.selectedUserDetails := by
    rw [h4.2, h3.2, h2.2, h1.2]
  have hcand : recipientCandidateNames st4 = recipientCandidateNames st :=
    recipientCandidateNames_congr hf1 hf2
  have hrne : r ≠ [] := by
    intro h0
    apply hnorm
    rw [h0]
    rfl
  have ht : jsTruthyO (some r) = true := decide_eq_true hrne
  have hrb : recipientBlock e st4 lvl4
      = ([Msg.recipientMismatch r], Level.warning) := by
    unfold recipientBlock
    rw [hr, ht]
    dsimp only [Option.getD_some]
    rw [if_pos rfl]
    rw [hcand, hmiss, Bool.and_false]
    rw [if_neg (by simp)]
    rw [if_pos hnorm]
  have hcb' : classBlock { e with recipientName := none } ctx st
      = classBlock e ctx st := rfl
  have hdb' : dateBlock jsValidDate { e with recipientName := none } ctx st1 lvl1
      = dateBlock jsValidDate e ctx st1 lvl1 := rfl
  have hhb' : hoursBlock { e with recipientName := none } ctx st2
      = hoursBlock e ctx st2 := rfl
  have hnb' : courseNumBlock { e with recipientName := none } ctx st3 lvl2
      = courseNumBlock e ctx st3 lvl2 := rfl
  have hrb' : recipientBlock { e with recipientName := none } st4 lvl4
      = ([], lvl4) := by
    unfold recipientBlock
    dsimp only
    rfl
  have htm : tailMsgs { e with recipientName := none } handled
      = tailMsgs e handled := rfl
  unfold applyAutofillResult
  rw [hctx]
  simp only [Bool.not_true, Bool.false_eq_true, if_false]
  rw [hcb', hcb]
  dsimp only
  rw [hdb', hdb]
  dsimp only
  rw [hhb', hhb]
  dsimp only
  rw [hnb', hnb]
  dsimp only
  rw [hrb, hrb', htm]
  dsimp only
  have hmem : Msg.recipientMismatch r
      ∈ msgs1 ++ msgs2 ++ msgs3 ++ msgs4 ++ [Msg.recipientMismatch r]
          ++ tailMsgs e handled := by
    simp
  rw [if_neg (List.ne_nil_of_mem hmem)]
  refine ⟨_, rfl, hmem, hf1, hf2, ?_⟩
  split <;> rfl

/-- Witness for C8 (amended): extracted recipient "John Smith" against the
selected Jane Doe produces the conflict message with warning severity and
an unchanged selected person. -/
theorem C8_recipient_conflict_witness :
    ∃ msgs,
      (applyAutofillResult (fun _ => false)
          (some { c8extracted with recipientName := some (str "John Smith") })
          c8ctx c8state).status = some (msgs, Level.warning)
      ∧ Msg.recipientMismatch (str "John Smith") ∈ msgs
      ∧ (applyAutofillResult (fun _ => false)
          (some { c8extracted with recipientName := some (str "John Smith") })
          c8ctx c8state).state.selectedUserNameText
          = c8state.selectedUserNameText
      ∧ (applyAutofillResult (fun _ => false)
          (some { c8extracted with recipientName := some (str "John Smith") })
          c8ctx c8state).state.selectedUserDetails
          = c8state.selectedUserDetails
      ∧ (applyAutofillResult (fun _ => false)
          (some { c8extracted with recipientName := some (str "John Smith") })
          c8ctx c8state).state
          = (applyAutofillResult (fun _ => false)
              (some { { c8extracted with
                          recipientName := some (str "John Smith") } with
                        recipientName := none }) c8ctx c8state).state :=
  C8_recipient_conflict (fun _ => false)
    { c8extracted with recipientName := some (str "John Smith") }
    c8ctx c8state (str "John Smith") (by decide) (by decide) (by decide)
    (by decide)

end CertIntel
